import Mathlib

/-!
# Trojan relay core: credential registry, dispatcher, TCP/UDP relay bookkeeping

A shallow embedding of `trojan.go` (package `trojan`).

* Go strings and byte slices are lists of bytes, a byte being a natural number below 256.
* `int64` counters are integers; every addition the code performs is followed by the
  two's-complement wrap `wrap64`.
* Go maps are association lists without repeated keys; the order of the list stands for
  the (unspecified) iteration order of the map.
* The locks of `Upstream` serialise the operations; each operation is modelled as one
  atomic state transformer.
-/

namespace Trojan

/-- Go `string` / `[]byte`. -/
abbrev Bytes := List Nat

/-! ## Standard library: `encoding/hex`, `encoding/base64`, `crypto/sha256` -/

/-- The table `hextable = "0123456789abcdef"` of `encoding/hex`. -/
def hextable : Bytes := [48, 49, 50, 51, 52, 53, 54, 55, 56, 57, 97, 98, 99, 100, 101, 102]

/-- Function `hex.Encode(dst, src)`: two lowercase hexadecimal digits per source byte. -/
def hexEncode : Bytes → Bytes
  | [] => []
  | v :: rest => hextable.getD (v / 16 % 16) 0 :: hextable.getD (v % 16) 0 :: hexEncode rest

/-- The alphabet of `base64.StdEncoding`: `A-Z`, `a-z`, `0-9`, `+`, `/`. -/
def encodeStd : Bytes :=
  [65, 66, 67, 68, 69, 70, 71, 72, 73, 74, 75, 76, 77, 78, 79, 80, 81, 82, 83, 84, 85, 86, 87,
   88, 89, 90, 97, 98, 99, 100, 101, 102, 103, 104, 105, 106, 107, 108, 109, 110, 111, 112, 113,
   114, 115, 116, 117, 118, 119, 120, 121, 122, 48, 49, 50, 51, 52, 53, 54, 55, 56, 57, 43, 47]

/-- One output character of the standard base64 alphabet, for a 6-bit value. -/
def b64 (i : Nat) : Nat := encodeStd.getD (i % 64) 0

/-- The padding character `=` of `base64.StdEncoding`. -/
def StdPadding : Nat := 61

/-- Function `base64.StdEncoding.EncodeToString`: three source bytes give four characters,
a final group of one or two bytes is padded with `=`. -/
def base64Encode : Bytes → Bytes
  | [] => []
  | [a] => [b64 (a / 4), b64 (a % 4 * 16), StdPadding, StdPadding]
  | [a, b] => [b64 (a / 4), b64 (a % 4 * 16 + b / 16), b64 (b % 16 * 4), StdPadding]
  | a :: b :: c :: rest =>
    b64 (a / 4) :: b64 (a % 4 * 16 + b / 16) :: b64 (b % 16 * 4 + c / 64) :: b64 (c % 64)
      :: base64Encode rest

/-- Addition of 32-bit words. -/
def add32 (a b : Nat) : Nat := (a + b) % 2 ^ 32

/-- Rotation to the right of a 32-bit word (`bits.RotateLeft32(x, 32 - n)`). -/
def rotr32 (x n : Nat) : Nat := (x >>> n ||| x <<< (32 - n)) % 2 ^ 32

/-- Bitwise complement of a 32-bit word. -/
def not32 (x : Nat) : Nat := 2 ^ 32 - 1 - x % 2 ^ 32

/-- The round constants `_K` of SHA-256. -/
def sha256K : List Nat :=
  [0x428a2f98, 0x71374491, 0xb5c0fbcf, 0xe9b5dba5, 0x3956c25b, 0x59f111f1, 0x923f82a4, 0xab1c5ed5,
   0xd807aa98, 0x12835b01, 0x243185be, 0x550c7dc3, 0x72be5d74, 0x80deb1fe, 0x9bdc06a7, 0xc19bf174,
   0xe49b69c1, 0xefbe4786, 0x0fc19dc6, 0x240ca1cc, 0x2de92c6f, 0x4a7484aa, 0x5cb0a9dc, 0x76f988da,
   0x983e5152, 0xa831c66d, 0xb00327c8, 0xbf597fc7, 0xc6e00bf3, 0xd5a79147, 0x06ca6351, 0x14292967,
   0x27b70a85, 0x2e1b2138, 0x4d2c6dfc, 0x53380d13, 0x650a7354, 0x766a0abb, 0x81c2c92e, 0x92722c85,
   0xa2bfe8a1, 0xa81a664b, 0xc24b8b70, 0xc76c51a3, 0xd192e819, 0xd6990624, 0xf40e3585, 0x106aa070,
   0x19a4c116, 0x1e376c08, 0x2748774c, 0x34b0bcb5, 0x391c0cb3, 0x4ed8aa4a, 0x5b9cca4f, 0x682e6ff3,
   0x748f82ee, 0x78a5636f, 0x84c87814, 0x8cc70208, 0x90befffa, 0xa4506ceb, 0xbef9a3f7, 0xc67178f2]

/-- The chaining value of SHA-256/224: eight 32-bit words. -/
structure digest where
  h0 : Nat
  h1 : Nat
  h2 : Nat
  h3 : Nat
  h4 : Nat
  h5 : Nat
  h6 : Nat
  h7 : Nat
deriving DecidableEq, Repr

/-- The initial chaining value of SHA-224 (`init0_224` .. `init7_224`). -/
def init224 : digest :=
  ⟨0xc1059ed8, 0x367cd507, 0x3070dd17, 0xf70e5939, 0xffc00b31, 0x68581511, 0x64f98fa7, 0xbefa4fa4⟩

/-- Big-endian encoding of a 32-bit word. -/
def be32 (w : Nat) : Bytes := [w / 2 ^ 24 % 256, w / 2 ^ 16 % 256, w / 2 ^ 8 % 256, w % 256]

/-- Big-endian decoding of the bytes of a block into 32-bit words. -/
def wordsOf : Bytes → List Nat
  | a :: b :: c :: d :: rest => (a * 2 ^ 24 + b * 2 ^ 16 + c * 2 ^ 8 + d) :: wordsOf rest
  | _ => []

/-- The message schedule: `w` holds the words computed so far, most recent first; each of the
`n` further words is `σ1(w[i-2]) + w[i-7] + σ0(w[i-15]) + w[i-16]`. -/
def schedule : Nat → List Nat → List Nat
  | 0, w => w
  | n + 1, w =>
    let v1 := w.getD 1 0
    let t1 := rotr32 v1 17 ^^^ rotr32 v1 19 ^^^ (v1 >>> 10)
    let v2 := w.getD 14 0
    let t2 := rotr32 v2 7 ^^^ rotr32 v2 18 ^^^ (v2 >>> 3)
    schedule n (add32 (add32 (add32 t1 (w.getD 6 0)) t2) (w.getD 15 0) :: w)

/-- One round of the compression function, for the round constant `k` and schedule word `w`. -/
def round (s : digest) (k w : Nat) : digest :=
  let t1 := add32 (add32 (add32 (add32 s.h7
    (rotr32 s.h4 6 ^^^ rotr32 s.h4 11 ^^^ rotr32 s.h4 25))
    ((s.h4 &&& s.h5) ^^^ (not32 s.h4 &&& s.h6))) k) w
  let t2 := add32 (rotr32 s.h0 2 ^^^ rotr32 s.h0 13 ^^^ rotr32 s.h0 22)
    ((s.h0 &&& s.h1) ^^^ (s.h0 &&& s.h2) ^^^ (s.h1 &&& s.h2))
  ⟨add32 t1 t2, s.h0, s.h1, s.h2, add32 s.h3 t1, s.h4, s.h5, s.h6⟩

/-- The 64 rounds over the round constants and the schedule words. -/
def rounds (s : digest) : List Nat → List Nat → digest
  | k :: ks, w :: ws => rounds (round s k w) ks ws
  | _, _ => s

/-- Function `block` on one 64-byte block. -/
def block (s : digest) (p : Bytes) : digest :=
  let w := (schedule 48 (wordsOf p).reverse).reverse
  let t := rounds s sha256K w
  ⟨add32 s.h0 t.h0, add32 s.h1 t.h1, add32 s.h2 t.h2, add32 s.h3 t.h3,
   add32 s.h4 t.h4, add32 s.h5 t.h5, add32 s.h6 t.h6, add32 s.h7 t.h7⟩

/-- Function `block` over `n` consecutive 64-byte blocks of `p`. -/
def blocks : Nat → digest → Bytes → digest
  | 0, s, _ => s
  | n + 1, s, p => blocks n (block s (p.take 64)) (p.drop 64)

/-- Big-endian encoding of the message length in bits, on 8 bytes. -/
def be64 (n : Nat) : Bytes := be32 (n / 2 ^ 32 % 2 ^ 32) ++ be32 (n % 2 ^ 32)

/-- The padded message: the byte `0x80`, zeros up to 56 modulo 64, the bit length. -/
def pad (p : Bytes) : Bytes :=
  p ++ 0x80 :: List.replicate ((119 - p.length % 64) % 64) 0 ++ be64 (p.length * 8 % 2 ^ 64)

/-- Function `sha256.Sum224`: the first seven words of the final chaining value. -/
def Sum224 (p : Bytes) : Bytes :=
  let m := pad p
  let d := blocks (m.length / 64) init224 m
  be32 d.h0 ++ be32 d.h1 ++ be32 d.h2 ++ be32 d.h3 ++ be32 d.h4 ++ be32 d.h5 ++ be32 d.h6

/-! ## The registry -/

/-- Constant `HeaderLen`. -/
def HeaderLen : Nat := 56

/-- Function `GenKey`: the lowercase hexadecimal form of the SHA-224 of the password. -/
def GenKey (s : Bytes) : Bytes := hexEncode (Sum224 s)

/-- The prefix `"Basic "` put in front by `fmt.Sprintf("Basic %v", ...)`. -/
def basicPrefix : Bytes := [66, 97, 115, 105, 99, 32]

/-- The expression `fmt.Sprintf("Basic %v", base64.StdEncoding.EncodeToString(k))`, the
alternate form under which `AddKey`, `DelKey` and `Range` index a credential. -/
def basicKey (k : Bytes) : Bytes := basicPrefix ++ base64Encode k

/-- Two's-complement wrap of an integer into the range of `int64`. -/
def wrap64 (x : Int) : Int := (x + 2 ^ 63) % 2 ^ 64 - 2 ^ 63

/-- Addition of two `int64` values as Go performs it. -/
def add64 (a b : Int) : Int := wrap64 (a + b)

/-- Type `usage`: the two byte counters of one credential. -/
structure usage where
  up : Int
  down : Int
deriving DecidableEq, Repr

/-- The lookup `v, ok := m[k]` of a Go map. -/
def mapGet {β : Type} : List (Bytes × β) → Bytes → Option β
  | [], _ => none
  | (a, v) :: rest, k => if a = k then some v else mapGet rest k

/-- The builtin `delete(m, k)` of a Go map. -/
def mapDelete {β : Type} : List (Bytes × β) → Bytes → List (Bytes × β)
  | [], _ => []
  | (a, v) :: rest, k => if a = k then mapDelete rest k else (a, v) :: mapDelete rest k

/-- The assignment `m[k] = v` of a Go map. -/
def mapSet {β : Type} (m : List (Bytes × β)) (k : Bytes) (v : β) : List (Bytes × β) :=
  (k, v) :: mapDelete m k

/-- Type `Upstream`: the set `users`, the map `usage.repo` and the aggregate `total`. -/
structure Upstream where
  users : List (Bytes × Unit)
  repo : List (Bytes × usage)
  total : usage
deriving DecidableEq, Repr

/-- The registry as `init` leaves it: two empty maps and a zero total. -/
def Upstream.init : Upstream := ⟨[], [], ⟨0, 0⟩⟩

/-- Method `Upstream.AddKey`. -/
def Upstream.AddKey (u : Upstream) (k : Bytes) : Upstream :=
  let key := basicKey k
  { u with users := mapSet (mapSet u.users key ()) k () }

/-- Method `Upstream.Add`. -/
def Upstream.Add (u : Upstream) (s : Bytes) : Upstream :=
  u.AddKey (GenKey s)

/-- Method `Upstream.DelKey`. -/
def Upstream.DelKey (u : Upstream) (k : Bytes) : Upstream :=
  let key := basicKey k
  { u with
    users := mapDelete (mapDelete u.users key) k
    repo := mapDelete (mapDelete u.repo key) k }

/-- Method `Upstream.Del`. -/
def Upstream.Del (u : Upstream) (s : Bytes) : Upstream :=
  u.DelKey (GenKey s)

/-- Constant `AuthLen` of `Range`. -/
def AuthLen : Nat := 82

/-- The loop of `Upstream.Range` over the keys of `users`; the result lists the calls
`fn(k, up, down)` in the order they are made. -/
def Upstream.rangeLoop (u : Upstream) : List (Bytes × Unit) → List (Bytes × Int × Int)
  | [] => []
  | (k, _) :: rest =>
    if k.length = AuthLen then u.rangeLoop rest
    else
      let v := match mapGet u.repo k with
        | some v => v
        | none => ⟨0, 0⟩
      let k1 := basicKey k
      let v1 := match mapGet u.repo k1 with
        | some v1 => v1
        | none => ⟨0, 0⟩
      (k, add64 v.up v1.up, add64 v.down v1.down) :: u.rangeLoop rest

/-- Method `Upstream.Range`, as the list of the calls it makes to `fn`. -/
def Upstream.Range (u : Upstream) : List (Bytes × Int × Int) :=
  u.rangeLoop u.users

/-- Method `Upstream.Validate`. -/
def Upstream.Validate (u : Upstream) (s : Bytes) : Bool :=
  match mapGet u.users s with
  | some _ => true
  | none => false

/-- Method `Upstream.Consume`. -/
def Upstream.Consume (u : Upstream) (s : Bytes) (nr nw : Int) : Upstream :=
  let use := match mapGet u.repo s with
    | some use => use
    | none => ⟨0, 0⟩
  let use := { use with up := add64 use.up nr }
  let use := { use with down := add64 use.down nw }
  { u with
    repo := mapSet u.repo s use
    total := ⟨add64 u.total.up nr, add64 u.total.down nw⟩ }

/-- A call on the registry. -/
inductive Op where
  | AddKey (k : Bytes)
  | Add (s : Bytes)
  | DelKey (k : Bytes)
  | Del (s : Bytes)
  | Consume (s : Bytes) (nr nw : Int)
deriving DecidableEq, Repr

/-- The effect of one call on the registry. -/
def Op.apply (u : Upstream) : Op → Upstream
  | .AddKey k => u.AddKey k
  | .Add s => u.Add s
  | .DelKey k => u.DelKey k
  | .Del s => u.Del s
  | .Consume s nr nw => u.Consume s nr nw

/-- The registry after a sequence of calls, made one after the other. -/
def Upstream.run (u : Upstream) (ops : List Op) : Upstream :=
  ops.foldl Op.apply u

/-- The sum, in `int64` arithmetic, of the `up` counters of all rows. -/
def sumUp : List (Bytes × usage) → Int
  | [] => 0
  | (_, v) :: rest => add64 v.up (sumUp rest)

/-- The sum, in `int64` arithmetic, of the `down` counters of all rows. -/
def sumDown : List (Bytes × usage) → Int
  | [] => 0
  | (_, v) :: rest => add64 v.down (sumDown rest)

/-- The row of a credential, a missing row counting as zero. -/
def rowOf (m : List (Bytes × usage)) (k : Bytes) : usage :=
  match mapGet m k with
  | some v => v
  | none => ⟨0, 0⟩

/-! ## Keys of a map, and the invariants of reachable registries -/

/-- The keys of a Go map, in iteration order. -/
def keys {β : Type} (m : List (Bytes × β)) : List Bytes := m.map Prod.fst

/-- The calls of the password interface: `Add`, `Del` and `Consume`. -/
def Op.isPasswordCall : Op → Bool
  | .Add _ => true
  | .Del _ => true
  | .Consume _ _ _ => true
  | _ => false

/-- The calls `AddKey(k)` and `DelKey(k)` on a credential of `HeaderLen` bytes. -/
def Op.isHeaderKeyCall : Op → Bool
  | .AddKey k => k.length = HeaderLen
  | .DelKey k => k.length = HeaderLen
  | _ => false

/-- The counters of the usage rows that a call deletes from the registry `u`. -/
def Op.removed (u : Upstream) : Op → usage
  | .DelKey k =>
    ⟨add64 (rowOf u.repo (basicKey k)).up (rowOf u.repo k).up,
     add64 (rowOf u.repo (basicKey k)).down (rowOf u.repo k).down⟩
  | .Del s =>
    ⟨add64 (rowOf u.repo (basicKey (GenKey s))).up (rowOf u.repo (GenKey s)).up,
     add64 (rowOf u.repo (basicKey (GenKey s))).down (rowOf u.repo (GenKey s)).down⟩
  | _ => ⟨0, 0⟩

/-- The counters of all usage rows deleted along a sequence of calls started in `u`,
summed in `int64` arithmetic. -/
def removedBy : Upstream → List Op → usage
  | _, [] => ⟨0, 0⟩
  | u, op :: rest =>
    ⟨add64 (op.removed u).up (removedBy (op.apply u) rest).up,
     add64 (op.removed u).down (removedBy (op.apply u) rest).down⟩

/-- The well-formedness of a registry: no key occurs twice in either map. -/
def Upstream.WF (u : Upstream) : Prop := (keys u.users).Nodup ∧ (keys u.repo).Nodup

/-- Every key of `users` is the credential of a password or the Basic form of one. -/
def Upstream.PasswordKeys (u : Upstream) : Prop :=
  ∀ k ∈ keys u.users, ∃ p, k = GenKey p ∨ k = basicKey (GenKey p)

/-- Every key of `users` has the length of a credential or of a Basic form. -/
def Upstream.HeaderKeys (u : Upstream) : Prop :=
  ∀ k ∈ keys u.users, k.length = HeaderLen ∨ k.length = AuthLen


/-! ## Errors and readers -/

/-- The Go `error` values of the handler: the sentinels `io.EOF`, `io.ErrUnexpectedEOF` and
`os.ErrDeadlineExceeded`, an error with a message, and `fmt.Errorf("<pfx>: %w", err)`. -/
inductive GoError where
  | EOF
  | ErrUnexpectedEOF
  | ErrDeadlineExceeded
  | New (msg : String)
  | Wrap (pfx : String) (err : GoError)
deriving DecidableEq, Repr

/-- Method `Error()`: the message of an error. -/
def GoError.Error : GoError → String
  | .EOF => "EOF"
  | .ErrUnexpectedEOF => "unexpected EOF"
  | .ErrDeadlineExceeded => "i/o timeout"
  | .New msg => msg
  | .Wrap pfx err => pfx ++ ": " ++ err.Error

/-- Function `errors.Is(err, target)` for a sentinel `target`: `err` or an error it wraps is
`target`. -/
def GoError.Is (target : GoError) : GoError → Bool
  | .Wrap pfx err => decide (GoError.Wrap pfx err = target) || GoError.Is target err
  | err => decide (err = target)

/-- The test `err == nil || errors.Is(err, os.ErrDeadlineExceeded)` of `HandleTCP`. -/
def nilOrDeadline : Option GoError → Bool
  | none => true
  | some err => GoError.Is .ErrDeadlineExceeded err

/-- An `io.Reader`: the bytes it still delivers, and the error of the `Read` after the last
of them (`io.EOF` when the stream ends cleanly). -/
structure Reader where
  data : Bytes
  err : GoError
deriving DecidableEq, Repr

/-- Function `io.ReadFull(r, buf)` for a buffer of `n` bytes: the `n` bytes read and the
rest of the stream, `io.ErrUnexpectedEOF` when the stream ends after some but not all of
them, the error of the stream otherwise. -/
def ReadFull (r : Reader) (n : Nat) : Except GoError (Bytes × Reader) :=
  if n ≤ r.data.length then .ok (r.data.take n, { r with data := r.data.drop n })
  else if 0 < r.data.length ∧ r.err = .EOF then .error .ErrUnexpectedEOF
  else .error r.err

/-! ## The address codec -/

/-- Modelled from the spec: the constant `AddrTypeIPv4` of the address codec, which is not
among the sources; scenario S3 writes an IPv4 address record as `01 | 08 08 08 08 | 00 35`. -/
def AddrTypeIPv4 : Nat := 1

/-- Modelled from the spec: the constant `AddrTypeDomain` of the address codec, which is not
among the sources; the spec fixes no value, 3 is the one of the SOCKS5 address format. -/
def AddrTypeDomain : Nat := 3

/-- Modelled from the spec: the constant `AddrTypeIPv6` of the address codec, which is not
among the sources; the spec fixes no value, 4 is the one of the SOCKS5 address format. -/
def AddrTypeIPv6 : Nat := 4

/-- Modelled from the spec: `ReadAddrBuffer` of the address codec, which is not among the
sources. It reads one address record `AddrType(1) | Addr(4 | 16 | 1+len) | Port(2)` from the
stream and returns its wire bytes with the rest of the stream; it fails with the I/O error
when the stream ends before or inside the record. -/
def ReadAddrBuffer (r : Reader) : Except GoError (Bytes × Reader) :=
  match ReadFull r 1 with
  | .error e => .error e
  | .ok (t, r1) =>
    if t = [AddrTypeIPv4] then
      match ReadFull r1 (4 + 2) with
      | .error e => .error e
      | .ok (a, r2) => .ok (t ++ a, r2)
    else if t = [AddrTypeIPv6] then
      match ReadFull r1 (16 + 2) with
      | .error e => .error e
      | .ok (a, r2) => .ok (t ++ a, r2)
    else if t = [AddrTypeDomain] then
      match ReadFull r1 1 with
      | .error e => .error e
      | .ok (n, r2) =>
        match ReadFull r2 (n.headD 0 + 2) with
        | .error e => .error e
        | .ok (a, r3) => .ok (t ++ n ++ a, r3)
    else .error (.New "addr type error")

/-! ## The dispatcher -/

/-- Constant `CmdConnect`. -/
def CmdConnect : Nat := 1

/-- Constant `CmdAssociate`. -/
def CmdAssociate : Nat := 3

/-- Type `net.TCPAddr`: an IP address and a port. -/
structure TCPAddr where
  IP : Bytes
  Port : Nat
deriving DecidableEq, Repr

/-- The relay that a call of `Handle` started. -/
inductive Relay where
  | TCP (tgt : TCPAddr)
  | UDP
deriving DecidableEq, Repr

/-- The three results of `Handle`, `HandleTCP` and `HandleUDP`. -/
structure Counts where
  nr : Int
  nw : Int
  err : Option GoError
deriving DecidableEq, Repr

/-- What a call of `Handle` does: the values it returns and the relay it started, if any. -/
structure Handled where
  ret : Counts
  started : Option Relay
deriving DecidableEq, Repr

/-- Function `Handle`. The address codec `readAddr`, the resolver `resolveTCP` and the two
relays (as functions of the rest of the client stream) are parameters. -/
def Handle (readAddr : Reader → Except GoError (Bytes × Reader))
    (resolveTCP : Bytes → Except GoError TCPAddr)
    (handleTCP : TCPAddr → Reader → Counts) (handleUDP : Reader → Counts)
    (r : Reader) : Handled :=
  -- read command
  match ReadFull r 1 with
  | .error err => ⟨⟨0, 0, some (.Wrap "read command error" err)⟩, none⟩
  | .ok (b0, r1) =>
    -- read address
    match readAddr r1 with
    | .error err => ⟨⟨0, 0, some (.Wrap "read addr error" err)⟩, none⟩
    | .ok (addr, r2) =>
      -- read 0x0d, 0x0a
      match ReadFull r2 2 with
      | .error err => ⟨⟨0, 0, some (.Wrap "read 0x0d 0x0a error" err)⟩, none⟩
      | .ok (_, r3) =>
        if b0 = [CmdConnect] then
          match resolveTCP addr with
          | .error err => ⟨⟨0, 0, some (.Wrap "resolve tcp addr error" err)⟩, none⟩
          | .ok tgt =>
            let res := handleTCP tgt r3
            match res.err with
            | some err => ⟨⟨res.nr, res.nw, some (.Wrap "handle tcp error" err)⟩, some (.TCP tgt)⟩
            | none => ⟨⟨res.nr, res.nw, none⟩, some (.TCP tgt)⟩
        else if b0 = [CmdAssociate] then
          let res := handleUDP r3
          match res.err with
          | some err => ⟨⟨res.nr, res.nw, some (.Wrap "handle udp error" err)⟩, some .UDP⟩
          | none => ⟨⟨res.nr, res.nw, none⟩, some .UDP⟩
        else ⟨⟨0, 0, some (.New "command error")⟩, none⟩

/-! ## The TCP relay -/

/-- The value that the client-to-target task of `HandleTCP` sends on `errCh`, for the
outcome `(nr, err)` of its `io.Copy(rc, r)`. -/
def tcpTaskResult (nr : Int) (err : Option GoError) : Int × Option GoError :=
  if nilOrDeadline err then (nr, none) else (nr, err)

/-- Function `HandleTCP`, as a function of the outcome of the dial, of the outcome `up` of
the `io.Copy(rc, r)` of the client-to-target task and of the outcome `down` of the
`io.Copy(w, rc)` of the calling task. -/
def HandleTCP (dial : Option GoError) (up down : Int × Option GoError) : Counts :=
  match dial with
  | some err => ⟨0, 0, some err⟩
  | none =>
    let r := tcpTaskResult up.1 up.2
    if nilOrDeadline down.2 then ⟨r.1, down.1, r.2⟩
    else ⟨r.1, down.1, down.2⟩


/-! ## The UDP relay -/

/-- Type `net.UDPAddr`: an IP address and a port. -/
structure UDPAddr where
  IP : Bytes
  Port : Nat
deriving DecidableEq, Repr

/-- Length and capacity of the scratch buffers `make([]byte, 16*1024)` of `HandleUDP`. -/
def udpBufLen : Nat := 16 * 1024

/-- One pass through the loop of the client-to-target task of `HandleUDP`. -/
inductive TaskStep where
  /-- The pass reached the end of the loop body; the loop goes on with these variables. -/
  | again (bb : Bytes) (tt : Option UDPAddr) (nr : Int) (r : Reader)
  /-- The pass left the loop by `break` with `err` set. -/
  | stop (nr : Int) (err : GoError)
  /-- The slice expression `b[lo:hi]` failed its bounds check: the run-time panic
  `slice bounds out of range [:hi] with capacity 16384`. -/
  | sliceOutOfRange (nr : Int) (hi : Nat)
deriving DecidableEq, Repr

/-- The body of the loop of the client-to-target task of `HandleUDP`. The address codec
`readAddr`, the resolver `resolveUDP` and the socket write `writeToUDP` are parameters;
`bb`, `tt` are the address saved by the previous pass, `nr` the byte count so far. -/
def clientToTargetBody (readAddr : Reader → Except GoError (Bytes × Reader))
    (resolveUDP : Bytes → Except GoError UDPAddr)
    (writeToUDP : Bytes → Option UDPAddr → Option GoError)
    (bb : Bytes) (tt : Option UDPAddr) (nr : Int) (r : Reader) : TaskStep :=
  match readAddr r with
  | .error er => .stop nr er
  | .ok (raddr, r1) =>
    let l := raddr.length
    let saved : Except GoError (Bytes × Option UDPAddr) :=
      if bb ≠ raddr then
        match resolveUDP raddr with
        | .error er => .error er
        | .ok addr => .ok (raddr, some addr)
      else .ok (bb, tt)
    match saved with
    | .error er => .stop nr er
    | .ok (bb, tt) =>
      -- io.ReadFull(r, b[l:l+4])
      if udpBufLen < l + 4 then .sliceOutOfRange nr (l + 4)
      else
        match ReadFull r1 4 with
        | .error er => .stop nr er
        | .ok (hdr, r2) =>
          -- l += (int(b[l])<<8 | int(b[l+1]))
          let l := l + (hdr.getD 0 0 <<< 8 ||| hdr.getD 1 0)
          let nr := add64 nr (l + 4)
          -- buf := b[len(raddr.Addr):l]
          if udpBufLen < l then .sliceOutOfRange nr l
          else
            match ReadFull r2 (l - raddr.length) with
            | .error er => .stop nr er
            | .ok (buf, r3) =>
              match writeToUDP buf tt with
              | some ew => .stop nr ew
              | none => .again bb tt nr r3

/-- How the client-to-target task of `HandleUDP` ends. -/
inductive TaskEnd where
  /-- The task left the loop and sent `Result{Num: nr, Err: err}` on `errCh`. -/
  | result (nr : Int) (err : Option GoError)
  /-- The task panicked on a slice expression out of range; nothing recovers the panic. -/
  | crash (nr : Int) (hi : Nat)
deriving DecidableEq, Repr

/-- The loop of the client-to-target task of `HandleUDP` with its deferred function, which
maps `io.EOF` and `os.ErrDeadlineExceeded` to nil; `fuel` bounds the number of passes. -/
def clientToTargetLoop (readAddr : Reader → Except GoError (Bytes × Reader))
    (resolveUDP : Bytes → Except GoError UDPAddr)
    (writeToUDP : Bytes → Option UDPAddr → Option GoError) :
    Nat → Bytes → Option UDPAddr → Int → Reader → Option TaskEnd
  | 0, _, _, _, _ => none
  | fuel + 1, bb, tt, nr, r =>
    match clientToTargetBody readAddr resolveUDP writeToUDP bb tt nr r with
    | .again bb tt nr r => clientToTargetLoop readAddr resolveUDP writeToUDP fuel bb tt nr r
    | .stop nr err =>
      if GoError.Is .EOF err || GoError.Is .ErrDeadlineExceeded err then some (.result nr none)
      else some (.result nr (some err))
    | .sliceOutOfRange nr hi => some (.crash nr hi)

/-- The client-to-target task of `HandleUDP`: the loop started with `bb` a zeroed buffer of
`MaxAddrLen` bytes, `tt` nil and `nr` zero. The constant `MaxAddrLen` of the address codec
is a parameter. -/
def clientToTargetTask (MaxAddrLen : Nat) (readAddr : Reader → Except GoError (Bytes × Reader))
    (resolveUDP : Bytes → Except GoError UDPAddr)
    (writeToUDP : Bytes → Option UDPAddr → Option GoError) (fuel : Nat) (r : Reader) :
    Option TaskEnd :=
  clientToTargetLoop readAddr resolveUDP writeToUDP fuel (List.replicate MaxAddrLen 0) none 0 r

/-- The slice expression `b[lo:hi]`. -/
def slice (b : Bytes) (lo hi : Nat) : Bytes := (b.take hi).drop lo

/-- The bytes `src` stored into `b` from index `off` on, as far as `b` reaches: the
assignment `b[off] = v` for one byte, the builtin `copy(b[off:], src)` for several. -/
def put (b : Bytes) (off : Nat) (src : Bytes) : Bytes :=
  b.take off ++ (src ++ b.drop (off + src.length)).take (b.length - off)

/-- The builtin `copy(b[lo:hi], src)`: as many bytes of `src` as the destination holds. -/
def copy (b : Bytes) (lo hi : Nat) (src : Bytes) : Bytes := put b lo (src.take (hi - lo))

/-- The prefix `v4InV6Prefix` of package `net`. -/
def v4InV6Prefix : Bytes := [0, 0, 0, 0, 0, 0, 0, 0, 0, 0, 0xff, 0xff]

/-- Method `net.IP.To4`: the 4-byte form of an IPv4 address, nil (`none`) otherwise. -/
def To4 (ip : Bytes) : Option Bytes :=
  if ip.length = 4 then some ip
  else if ip.length = 16 ∧ ip.take 12 = v4InV6Prefix then some (ip.drop 12)
  else none

/-- Method `net.IP.To16`: the 16-byte form of an address, nil (the empty slice) when the
address has neither 4 nor 16 bytes. -/
def To16 (ip : Bytes) : Bytes :=
  if ip.length = 4 then v4InV6Prefix ++ ip
  else if ip.length = 16 then ip
  else []

/-- A datagram as `rc.ReadFrom` delivers it: the payload and the address of the sender. -/
structure Datagram where
  payload : Bytes
  IP : Bytes
  Port : Nat
deriving DecidableEq, Repr

/-- The function literal of the target-to-client loop of `HandleUDP` that writes the address
of the sender in front of index `MaxAddrLen` and returns its length. The constants
`MaxAddrLen` (here `M`), `AddrTypeIPv4` and `AddrTypeIPv6` of the address codec are
parameters. -/
def putSender (M t4 t6 : Nat) (b : Bytes) (ip : Bytes) (port : Nat) : Bytes × Nat :=
  match To4 ip with
  | some ipv4 =>
    let offset := M - (1 + 4 + 2)
    let b := put b offset [t4]
    let b := copy b (offset + 1) M ipv4
    let b := put b (offset + 1 + 4) [port / 256 % 256]
    let b := put b (offset + 1 + 4 + 1) [port % 256]
    (b, 1 + 4 + 2)
  | none =>
    let offset := M - (1 + 16 + 2)
    let b := put b offset [t6]
    let b := copy b (offset + 1) M (To16 ip)
    let b := put b (offset + 1 + 16) [port / 256 % 256]
    let b := put b (offset + 1 + 16 + 1) [port % 256]
    (b, 1 + 16 + 2)

/-- What one pass through the target-to-client loop of `HandleUDP` does. -/
structure Written where
  /-- The scratch buffer after the pass. -/
  b : Bytes
  /-- The slice passed to `w.Write`. -/
  record : Bytes
  /-- The amount added to `nw`, namely `4 + int64(n) + l`. -/
  count : Int
deriving DecidableEq, Repr

/-- The body of the target-to-client loop of `HandleUDP` for one datagram that `rc.ReadFrom`
delivers, up to the call of `w.Write`. -/
def targetToClientBody (M t4 t6 : Nat) (b : Bytes) (d : Datagram) : Written :=
  -- n, addr, er := rc.ReadFrom(b[MaxAddrLen+4:])
  let n := min d.payload.length (b.length - (M + 4))
  let b := copy b (M + 4) b.length d.payload
  let b := put b M [n / 256 % 256]
  let b := put b (M + 1) [n % 256]
  let (b, l) := putSender M t4 t6 b d.IP d.Port
  ⟨b, slice b (M - l) (M + 4 + n), 4 + (n : Int) + (l : Int)⟩

/-- What the target-to-client loop of `HandleUDP` does. -/
structure Returned where
  /-- The slices passed to `w.Write`, in order. -/
  writes : List Bytes
  /-- The variable `nw` when the loop is left. -/
  nw : Int
  /-- The variable `err` when the loop is left. -/
  err : GoError
deriving DecidableEq, Repr

/-- The target-to-client loop of `HandleUDP`. Each event is a datagram that `rc.ReadFrom`
delivers together with the outcome of the `w.Write` that follows; `er` is the error on which
`rc.ReadFrom` fails after these datagrams (at the latest the idle deadline). -/
def targetToClientLoop (M t4 t6 : Nat) :
    Bytes → Int → List (Datagram × Option GoError) → GoError → Returned
  | _, nw, [], er => ⟨[], nw, er⟩
  | b, nw, (d, ew) :: rest, er =>
    let out := targetToClientBody M t4 t6 b d
    let nw := add64 nw out.count
    match ew with
    | some ew => ⟨[out.record], nw, ew⟩
    | none =>
      let res := targetToClientLoop M t4 t6 out.b nw rest er
      ⟨out.record :: res.writes, res.nw, res.err⟩

/-- The target-to-client task of `HandleUDP`: the loop started on a fresh buffer of 16 KiB
in which `0x0d`, `0x0a` are stored at `MaxAddrLen+2` and `MaxAddrLen+3`, with `nw` zero. -/
def targetToClientTask (M t4 t6 : Nat) (events : List (Datagram × Option GoError))
    (er : GoError) : Returned :=
  let b := List.replicate udpBufLen 0
  let b := put b (M + 2) [0x0d]
  let b := put b (M + 3) [0x0a]
  targetToClientLoop M t4 t6 b 0 events er

/-- Big-endian encoding of a value below 65536 on two bytes. -/
def be16 (x : Nat) : Bytes := [x / 256, x % 256]

/-- The UDP framed record of a datagram, as section 3 of the specification lays it out:
the address type, the 4- or 16-byte address, the port, the length, `0x0D 0x0A`, the
payload. -/
def framedRecord (t4 t6 : Nat) (d : Datagram) : Bytes :=
  match To4 d.IP with
  | some ipv4 => t4 :: ipv4 ++ be16 d.Port ++ be16 d.payload.length ++ [0x0d, 0x0a] ++ d.payload
  | none => t6 :: d.IP ++ be16 d.Port ++ be16 d.payload.length ++ [0x0d, 0x0a] ++ d.payload

/-- The length of the address part of a framed record: 7 for IPv4, 19 for IPv6. -/
def addrLen (d : Datagram) : Nat :=
  match To4 d.IP with
  | some _ => 7
  | none => 19

/-- The datagrams for which the loop reaches `w.Write`: those up to and including the first
one whose `Write` fails. -/
def attempted : List (Datagram × Option GoError) → List Datagram
  | [] => []
  | (d, none) :: rest => d :: attempted rest
  | (d, some _) :: _ => [d]

/-- A datagram as `rc.ReadFrom(b[MaxAddrLen+4:])` can return it: an address of 4 or 16
bytes, a port below 65536, a payload no longer than the buffer passed to `ReadFrom`. -/
def Datagram.fits (M : Nat) (d : Datagram) : Bool :=
  (d.IP.length = 4 ∨ d.IP.length = 16) ∧ d.Port < 65536 ∧
    d.payload.length ≤ udpBufLen - (M + 4)


/-! ## Lemmas on the standard-library functions -/

theorem hexEncode_length (l : Bytes) : (hexEncode l).length = 2 * l.length := by
  induction l with
  | nil => rfl
  | cons v rest ih => simp [hexEncode, ih]; omega

theorem hexEncode_mem_hextable (l : Bytes) : ∀ c ∈ hexEncode l, c ∈ hextable := by
  induction l with
  | nil => simp [hexEncode]
  | cons v rest ih =>
    have h16 : ∀ i, i < 16 → hextable.getD i 0 ∈ hextable := by decide
    intro c hc
    simp only [hexEncode, List.mem_cons] at hc
    rcases hc with hc | hc | hc
    · rw [hc]; exact h16 _ (Nat.mod_lt _ (by norm_num))
    · rw [hc]; exact h16 _ (Nat.mod_lt _ (by norm_num))
    · exact ih c hc

theorem Sum224_length (p : Bytes) : (Sum224 p).length = 28 := by
  simp [Sum224, be32]

theorem GenKey_length (p : Bytes) : (GenKey p).length = 56 := by
  simp [GenKey, hexEncode_length, Sum224_length]

theorem base64Encode_length (l : Bytes) : (base64Encode l).length = 4 * ((l.length + 2) / 3) := by
  induction l using base64Encode.induct with
  | case1 => rfl
  | case2 a => simp [base64Encode]
  | case3 a b => simp [base64Encode]
  | case4 a b c rest ih =>
    simp only [base64Encode, List.length_cons, ih]
    omega

theorem basicKey_length (k : Bytes) : (basicKey k).length = 6 + 4 * ((k.length + 2) / 3) := by
  simp only [basicKey, basicPrefix, List.length_append, base64Encode_length, List.length_cons,
    List.length_nil]

theorem basicKey_GenKey_length (p : Bytes) : (basicKey (GenKey p)).length = 82 := by
  rw [basicKey_length, GenKey_length]

theorem basicKey_ne_self (k : Bytes) : basicKey k ≠ k := by
  intro h
  have := congrArg List.length h
  rw [basicKey_length] at this
  omega

/-! ## Lemmas on `int64` addition -/

theorem add64_assoc (a b c : Int) : add64 (add64 a b) c = add64 a (add64 b c) := by
  unfold add64 wrap64; omega

theorem add64_left_comm (a b c : Int) : add64 a (add64 b c) = add64 b (add64 a c) := by
  unfold add64 wrap64; omega

theorem add64_comm (a b : Int) : add64 a b = add64 b a := by
  unfold add64; rw [Int.add_comm]

theorem add64_wrap_right (a b : Int) : add64 a (wrap64 b) = add64 a b := by
  unfold add64 wrap64; omega

/-! ## Lemmas on Go maps -/

theorem mapGet_mapDelete {β : Type} (m : List (Bytes × β)) (k a : Bytes) :
    mapGet (mapDelete m k) a = if a = k then none else mapGet m a := by
  induction m with
  | nil => simp [mapDelete, mapGet]
  | cons e rest ih =>
    obtain ⟨x, v⟩ := e
    by_cases hx : x = k
    · subst hx
      simp only [mapDelete, if_true, ih, mapGet]
      by_cases ha : a = x
      · simp [ha]
      · have : ¬ x = a := fun h => ha h.symm
        simp [ha, this]
    · simp only [mapDelete, hx, if_false, mapGet, ih]
      by_cases ha : a = k
      · subst ha; simp [hx]
      · simp [ha]

theorem mapGet_mapSet {β : Type} (m : List (Bytes × β)) (k a : Bytes) (v : β) :
    mapGet (mapSet m k v) a = if a = k then some v else mapGet m a := by
  unfold mapSet
  simp only [mapGet, mapGet_mapDelete]
  by_cases ha : a = k
  · subst ha; simp
  · have : ¬ k = a := fun h => ha h.symm
    simp [ha, this]

theorem mem_keys_mapDelete {β : Type} (m : List (Bytes × β)) (k a : Bytes) :
    a ∈ keys (mapDelete m k) ↔ a ≠ k ∧ a ∈ keys m := by
  induction m with
  | nil => simp [mapDelete, keys]
  | cons e rest ih =>
    obtain ⟨x, v⟩ := e
    by_cases hx : x = k
    · subst hx
      simp only [mapDelete, if_true, ih]
      simp only [keys, List.map_cons, List.mem_cons]
      constructor
      · rintro ⟨h1, h2⟩; exact ⟨h1, Or.inr h2⟩
      · rintro ⟨h1, h2 | h2⟩
        · exact absurd h2 h1
        · exact ⟨h1, h2⟩
    · simp only [mapDelete, hx, if_false]
      simp only [keys, List.map_cons, List.mem_cons] at ih ⊢
      rw [ih]
      constructor
      · rintro (h | ⟨h1, h2⟩)
        · exact ⟨by rw [h]; exact hx, Or.inl h⟩
        · exact ⟨h1, Or.inr h2⟩
      · rintro ⟨h1, h2 | h2⟩
        · exact Or.inl h2
        · exact Or.inr ⟨h1, h2⟩

theorem nodup_keys_mapDelete {β : Type} (m : List (Bytes × β)) (k : Bytes)
    (h : (keys m).Nodup) : (keys (mapDelete m k)).Nodup := by
  induction m with
  | nil => simp [mapDelete, keys]
  | cons e rest ih =>
    obtain ⟨x, v⟩ := e
    simp only [keys, List.map_cons, List.nodup_cons] at h
    by_cases hx : x = k
    · simp only [mapDelete, hx, if_true]
      exact ih h.2
    · simp only [mapDelete, hx, if_false]
      simp only [keys, List.map_cons, List.nodup_cons]
      refine ⟨fun hm => h.1 ?_, ih h.2⟩
      exact ((mem_keys_mapDelete rest k x).1 hm).2

theorem mem_keys_mapSet {β : Type} (m : List (Bytes × β)) (k a : Bytes) (v : β) :
    a ∈ keys (mapSet m k v) ↔ a = k ∨ a ∈ keys m := by
  have h := mem_keys_mapDelete m k a
  simp only [keys] at h
  simp only [mapSet, keys, List.map_cons, List.mem_cons, h]
  by_cases ha : a = k
  · simp [ha]
  · simp [ha]

theorem nodup_keys_mapSet {β : Type} (m : List (Bytes × β)) (k : Bytes) (v : β)
    (h : (keys m).Nodup) : (keys (mapSet m k v)).Nodup := by
  have h1 := nodup_keys_mapDelete m k h
  have h2 := mem_keys_mapDelete m k k
  simp only [keys] at h1 h2
  simp only [mapSet, keys, List.map_cons, List.nodup_cons]
  exact ⟨fun hm => (h2.1 hm).1 rfl, h1⟩

theorem mem_keys_iff {β : Type} (m : List (Bytes × β)) (k : Bytes) :
    k ∈ keys m ↔ ∃ v, mapGet m k = some v := by
  induction m with
  | nil => simp [keys, mapGet]
  | cons e rest ih =>
    obtain ⟨x, v⟩ := e
    simp only [keys, List.map_cons, List.mem_cons, mapGet] at ih ⊢
    by_cases hx : x = k
    · simp [hx]
    · have : ¬ k = x := fun h => hx h.symm
      simp [hx, this, ih]

theorem mapDelete_of_not_mem {β : Type} (m : List (Bytes × β)) (k : Bytes)
    (h : k ∉ keys m) : mapDelete m k = m := by
  induction m with
  | nil => rfl
  | cons e rest ih =>
    obtain ⟨x, v⟩ := e
    simp only [keys, List.map_cons, List.mem_cons, not_or] at h
    have hx : ¬ x = k := fun h' => h.1 h'.symm
    simp only [mapDelete, hx, if_false]
    rw [ih h.2]

theorem WF_init : Upstream.init.WF := by
  simp [Upstream.WF, Upstream.init, keys]

theorem WF_apply (u : Upstream) (op : Op) (h : u.WF) : (op.apply u).WF := by
  obtain ⟨h1, h2⟩ := h
  cases op with
  | AddKey k => exact ⟨nodup_keys_mapSet _ _ _ (nodup_keys_mapSet _ _ _ h1), h2⟩
  | Add s => exact ⟨nodup_keys_mapSet _ _ _ (nodup_keys_mapSet _ _ _ h1), h2⟩
  | DelKey k =>
    exact ⟨nodup_keys_mapDelete _ _ (nodup_keys_mapDelete _ _ h1),
      nodup_keys_mapDelete _ _ (nodup_keys_mapDelete _ _ h2)⟩
  | Del s =>
    exact ⟨nodup_keys_mapDelete _ _ (nodup_keys_mapDelete _ _ h1),
      nodup_keys_mapDelete _ _ (nodup_keys_mapDelete _ _ h2)⟩
  | Consume s nr nw => exact ⟨h1, nodup_keys_mapSet _ _ _ h2⟩

/-- An invariant kept by every call of a class `Q` holds after any sequence of such calls. -/
theorem run_invariant (P : Upstream → Prop) (Q : Op → Prop)
    (hstep : ∀ u op, Q op → P u → P (op.apply u)) :
    ∀ (ops : List Op) (u : Upstream), (∀ op ∈ ops, Q op) → P u → P (u.run ops) := by
  intro ops
  induction ops with
  | nil => intro u _ hu; exact hu
  | cons op rest ih =>
    intro u hq hu
    simp only [Upstream.run, List.foldl_cons]
    exact ih (op.apply u) (fun o ho => hq o (List.mem_cons_of_mem _ ho))
      (hstep u op (hq op (List.mem_cons_self _ _)) hu)

theorem WF_run (ops : List Op) : (Upstream.init.run ops).WF :=
  run_invariant Upstream.WF (fun _ => True) (fun u op _ h => WF_apply u op h) ops _
    (fun _ _ => trivial) WF_init

/-! ## `Range` -/

theorem rangeLoop_keys (u : Upstream) (l : List (Bytes × Unit)) :
    (u.rangeLoop l).map Prod.fst = (keys l).filter (fun k => decide (k.length ≠ AuthLen)) := by
  induction l with
  | nil => rfl
  | cons e rest ih =>
    obtain ⟨k, x⟩ := e
    by_cases hk : k.length = AuthLen
    · simp only [Upstream.rangeLoop, hk, if_true, ih, keys, List.map_cons]
      rw [List.filter_cons_of_neg (by simp [hk])]
    · simp only [Upstream.rangeLoop, hk, if_false, keys, List.map_cons]
      rw [List.filter_cons_of_pos (by simp [hk])]
      simp only [keys] at ih
      rw [← ih]

theorem rangeLoop_values (u : Upstream) (l : List (Bytes × Unit)) :
    ∀ k up down, (k, up, down) ∈ u.rangeLoop l →
      up = add64 (rowOf u.repo k).up (rowOf u.repo (basicKey k)).up ∧
      down = add64 (rowOf u.repo k).down (rowOf u.repo (basicKey k)).down := by
  induction l with
  | nil => intro k up down h; simp [Upstream.rangeLoop] at h
  | cons e rest ih =>
    obtain ⟨a, x⟩ := e
    intro k up down h
    by_cases ha : a.length = AuthLen
    · simp only [Upstream.rangeLoop, ha, if_true] at h
      exact ih k up down h
    · simp only [Upstream.rangeLoop, ha, if_false, List.mem_cons, Prod.mk.injEq] at h
      rcases h with ⟨h1, h2, h3⟩ | h
      · subst h1
        exact ⟨h2, h3⟩
      · exact ih k up down h

theorem filter_key_length_one (l : List (Bytes × Int × Int)) (a : Bytes)
    (hn : (l.map Prod.fst).Nodup) (ha : a ∈ l.map Prod.fst) :
    (l.filter (fun c => c.1 = a)).length = 1 := by
  induction l with
  | nil => simp at ha
  | cons e rest ih =>
    simp only [List.map_cons, List.nodup_cons, List.mem_cons] at hn ha
    by_cases he : e.1 = a
    · rw [List.filter_cons_of_pos (by simp [he])]
      have : rest.filter (fun c => decide (c.1 = a)) = [] := by
        rw [List.filter_eq_nil_iff]
        intro c hc hca
        simp only [decide_eq_true_eq] at hca
        exact hn.1 (he ▸ hca ▸ List.mem_map.2 ⟨c, hc, rfl⟩)
      simp [this]
    · rw [List.filter_cons_of_neg (by simp [he])]
      rcases ha with ha | ha
      · exact absurd ha.symm he
      · exact ih hn.2 ha

theorem Range_keys_nodup (u : Upstream) (h : u.WF) : (u.Range.map Prod.fst).Nodup := by
  rw [Upstream.Range, rangeLoop_keys]
  exact h.1.filter _

theorem mem_Range_keys (u : Upstream) (k : Bytes) :
    k ∈ u.Range.map Prod.fst ↔ k ∈ keys u.users ∧ k.length ≠ AuthLen := by
  rw [Upstream.Range, rangeLoop_keys]
  simp [List.mem_filter]

theorem Validate_iff (u : Upstream) (k : Bytes) : u.Validate k = true ↔ k ∈ keys u.users := by
  rw [mem_keys_iff]
  unfold Upstream.Validate
  cases mapGet u.users k <;> simp


/-! ## The registry: `Add`, `Del`, `Validate`, `Consume` -/

/-- **C1.** In every registry state and for every password `p`, after `Add(p)` both
`Validate(GenKey(p))` and `Validate("Basic " + base64(GenKey(p)))` return true, where
`GenKey(p)` is the hexadecimal form of `sha224(p)`: 56 characters, all of them lowercase
hexadecimal digits. -/
theorem add_then_validate (u : Upstream) (p : Bytes) :
    (u.Add p).Validate (GenKey p) = true ∧
    (u.Add p).Validate (basicKey (GenKey p)) = true ∧
    GenKey p = hexEncode (Sum224 p) ∧
    (GenKey p).length = 56 ∧
    ∀ c ∈ GenKey p, c ∈ hextable := by
  refine ⟨?_, ?_, rfl, GenKey_length p, hexEncode_mem_hextable _⟩
  · simp [Upstream.Add, Upstream.AddKey, Upstream.Validate, mapGet_mapSet]
  · simp only [Upstream.Add, Upstream.AddKey, Upstream.Validate, mapGet_mapSet]
    by_cases h : basicKey (GenKey p) = GenKey p <;> simp [h]

/-- **C2.** In every registry state and for every password `p`, after `Del(p)` both
`Validate(GenKey(p))` and `Validate("Basic " + base64(GenKey(p)))` return false, and the
usage map holds no row under either form. -/
theorem del_then_validate (u : Upstream) (p : Bytes) :
    (u.Del p).Validate (GenKey p) = false ∧
    (u.Del p).Validate (basicKey (GenKey p)) = false ∧
    mapGet (u.Del p).repo (GenKey p) = none ∧
    mapGet (u.Del p).repo (basicKey (GenKey p)) = none := by
  refine ⟨?_, ?_, ?_, ?_⟩
  · simp [Upstream.Del, Upstream.DelKey, Upstream.Validate, mapGet_mapDelete]
  · simp only [Upstream.Del, Upstream.DelKey, Upstream.Validate, mapGet_mapDelete]
    by_cases h : basicKey (GenKey p) = GenKey p <;> simp [h]
  · simp [Upstream.Del, Upstream.DelKey, mapGet_mapDelete]
  · simp only [Upstream.Del, Upstream.DelKey, mapGet_mapDelete]
    by_cases h : basicKey (GenKey p) = GenKey p <;> simp [h]

/-- **C5.** In every registry state, for every credential `k` and counts `a`, `b`, `c`, `d`,
`Consume(k, a, b)` followed by `Consume(k, c, d)` increases the usage row of `k` by
`(a + c, b + d)`, a missing row starting from zero, and increases `total` by `(a + c, b + d)`,
in `int64` arithmetic; every other usage row and the set `users` are unchanged. -/
theorem consume_twice (u : Upstream) (k : Bytes) (a b c d : Int) :
    mapGet ((u.Consume k a b).Consume k c d).repo k =
      some ⟨add64 (rowOf u.repo k).up (add64 a c), add64 (rowOf u.repo k).down (add64 b d)⟩ ∧
    ((u.Consume k a b).Consume k c d).total =
      ⟨add64 u.total.up (add64 a c), add64 u.total.down (add64 b d)⟩ ∧
    (∀ s, s ≠ k → mapGet ((u.Consume k a b).Consume k c d).repo s = mapGet u.repo s) ∧
    ((u.Consume k a b).Consume k c d).users = u.users := by
  refine ⟨?_, ?_, ?_, rfl⟩
  · simp only [Upstream.Consume, mapGet_mapSet, if_true, rowOf]
    cases mapGet u.repo k <;> simp [add64_assoc]
  · simp [Upstream.Consume, add64_assoc]
  · intro s hs
    simp [Upstream.Consume, mapGet_mapSet, hs]


theorem PasswordKeys_apply (u : Upstream) (op : Op) (hop : op.isPasswordCall = true)
    (h : u.PasswordKeys) : (op.apply u).PasswordKeys := by
  cases op with
  | AddKey k => simp [Op.isPasswordCall] at hop
  | DelKey k => simp [Op.isPasswordCall] at hop
  | Add s =>
    intro k hk
    simp only [Op.apply, Upstream.Add, Upstream.AddKey, mem_keys_mapSet] at hk
    rcases hk with hk | hk | hk
    · exact ⟨s, Or.inl hk⟩
    · exact ⟨s, Or.inr hk⟩
    · exact h k hk
  | Del s =>
    intro k hk
    simp only [Op.apply, Upstream.Del, Upstream.DelKey, mem_keys_mapDelete] at hk
    exact h k hk.2.2
  | Consume s nr nw => exact h

/-- **C3.** In every registry state reached from the empty registry by a sequence of `Add`,
`Del` and `Consume` calls, `Range` calls `fn` exactly once with the key `GenKey(p)` for every
enrolled password `p`, calls it with no other key, and the `up` and `down` it passes are the
sums (Go's `int64` addition) of the usage rows stored under `GenKey(p)` and under its Basic
form, a missing row counting as zero. -/
theorem range_once_per_password (ops : List Op) (h : ∀ op ∈ ops, op.isPasswordCall = true) :
    (∀ p, (Upstream.init.run ops).Validate (GenKey p) = true →
      ((Upstream.init.run ops).Range.filter (fun c => c.1 = GenKey p)).length = 1) ∧
    (∀ k up down, (k, up, down) ∈ (Upstream.init.run ops).Range →
      (∃ p, k = GenKey p ∧ (Upstream.init.run ops).Validate (GenKey p) = true) ∧
      up = add64 (rowOf (Upstream.init.run ops).repo k).up
        (rowOf (Upstream.init.run ops).repo (basicKey k)).up ∧
      down = add64 (rowOf (Upstream.init.run ops).repo k).down
        (rowOf (Upstream.init.run ops).repo (basicKey k)).down) := by
  have hwf := WF_run ops
  have hpk : (Upstream.init.run ops).PasswordKeys :=
    run_invariant Upstream.PasswordKeys (fun op => op.isPasswordCall = true)
      PasswordKeys_apply ops _ h (by intro k hk; simp [Upstream.init, keys] at hk)
  generalize Upstream.init.run ops = u at hwf hpk
  constructor
  · intro p hp
    apply filter_key_length_one _ _ (Range_keys_nodup u hwf)
    rw [mem_Range_keys]
    refine ⟨(Validate_iff u _).1 hp, ?_⟩
    rw [GenKey_length]
    decide
  · intro k up down hmem
    refine ⟨?_, rangeLoop_values u u.users k up down hmem⟩
    have hk : k ∈ u.Range.map Prod.fst := List.mem_map.2 ⟨(k, up, down), hmem, rfl⟩
    rw [mem_Range_keys] at hk
    obtain ⟨p, hp | hp⟩ := hpk k hk.1
    · exact ⟨p, hp, (Validate_iff u _).2 (hp ▸ hk.1)⟩
    · exact absurd (hp ▸ basicKey_GenKey_length p) hk.2

/-- A witness of `range_once_per_password`: one password enrolled, traffic consumed under a
credential, another password removed. -/
theorem range_once_per_password_witness :
    (∀ op ∈ [Op.Add [112, 119], Op.Consume [107] 100 200, Op.Del [113]],
      op.isPasswordCall = true) ∧
    ((∀ p, (Upstream.init.run [Op.Add [112, 119], Op.Consume [107] 100 200,
        Op.Del [113]]).Validate (GenKey p) = true →
      ((Upstream.init.run [Op.Add [112, 119], Op.Consume [107] 100 200,
        Op.Del [113]]).Range.filter (fun c => c.1 = GenKey p)).length = 1) ∧
    (∀ k up down, (k, up, down) ∈ (Upstream.init.run [Op.Add [112, 119],
        Op.Consume [107] 100 200, Op.Del [113]]).Range →
      (∃ p, k = GenKey p ∧ (Upstream.init.run [Op.Add [112, 119], Op.Consume [107] 100 200,
        Op.Del [113]]).Validate (GenKey p) = true) ∧
      up = add64 (rowOf (Upstream.init.run [Op.Add [112, 119], Op.Consume [107] 100 200,
        Op.Del [113]]).repo k).up
        (rowOf (Upstream.init.run [Op.Add [112, 119], Op.Consume [107] 100 200,
        Op.Del [113]]).repo (basicKey k)).up ∧
      down = add64 (rowOf (Upstream.init.run [Op.Add [112, 119], Op.Consume [107] 100 200,
        Op.Del [113]]).repo k).down
        (rowOf (Upstream.init.run [Op.Add [112, 119], Op.Consume [107] 100 200,
        Op.Del [113]]).repo (basicKey k)).down)) :=
  ⟨by decide, range_once_per_password _ (by decide)⟩

theorem HeaderKeys_apply (u : Upstream) (op : Op) (hop : op.isHeaderKeyCall = true)
    (h : u.HeaderKeys) : (op.apply u).HeaderKeys := by
  cases op with
  | Add s => simp [Op.isHeaderKeyCall] at hop
  | Del s => simp [Op.isHeaderKeyCall] at hop
  | Consume s nr nw => simp [Op.isHeaderKeyCall] at hop
  | AddKey a =>
    simp only [Op.isHeaderKeyCall, decide_eq_true_eq] at hop
    intro k hk
    simp only [Op.apply, Upstream.AddKey, mem_keys_mapSet] at hk
    rcases hk with hk | hk | hk
    · exact Or.inl (hk ▸ hop)
    · right
      rw [hk, basicKey_length, hop]
      rfl
    · exact h k hk
  | DelKey a =>
    intro k hk
    simp only [Op.apply, Upstream.DelKey, mem_keys_mapDelete] at hk
    exact h k hk.2.2

/-- **C4 (as the claim states it) fails.** After `AddKey("k")` the one-byte key `"k"` is
enrolled and `Range` calls `fn` on its Basic form `"Basic aw=="`, whose length is not 82. -/
theorem range_basic_form_counterexample :
    (Upstream.init.run [Op.AddKey [107]]).Validate [107] = true ∧
    basicKey [107] ∈ (Upstream.init.run [Op.AddKey [107]]).Range.map Prod.fst := by
  decide

/-- **C4 (amended).** In every registry state reached from the empty registry by `AddKey` and
`DelKey` calls on credentials of `HeaderLen` = 56 bytes, `Range` never calls `fn` on a Basic
form `"Basic " + base64(k)`, whatever `k`; every key it passes is an enrolled credential of
56 bytes, and no key is passed twice. -/
theorem range_raw_form_only (ops : List Op) (h : ∀ op ∈ ops, op.isHeaderKeyCall = true) :
    (∀ k, basicKey k ∉ (Upstream.init.run ops).Range.map Prod.fst) ∧
    (∀ k ∈ (Upstream.init.run ops).Range.map Prod.fst,
      k.length = HeaderLen ∧ (Upstream.init.run ops).Validate k = true) ∧
    ((Upstream.init.run ops).Range.map Prod.fst).Nodup := by
  have hwf := WF_run ops
  have hhk : (Upstream.init.run ops).HeaderKeys :=
    run_invariant Upstream.HeaderKeys (fun op => op.isHeaderKeyCall = true)
      HeaderKeys_apply ops _ h (by intro k hk; simp [Upstream.init, keys] at hk)
  generalize Upstream.init.run ops = u at hwf hhk
  have hlen : ∀ k ∈ u.Range.map Prod.fst, k.length = HeaderLen ∧ u.Validate k = true := by
    intro k hk
    rw [mem_Range_keys] at hk
    refine ⟨?_, (Validate_iff u k).2 hk.1⟩
    rcases hhk k hk.1 with h1 | h1
    · exact h1
    · exact absurd h1 hk.2
  refine ⟨?_, hlen, Range_keys_nodup u hwf⟩
  intro k hk
  have h1 := (hlen _ hk).1
  rw [basicKey_length] at h1
  simp only [HeaderLen] at h1
  omega

/-- A witness of `range_raw_form_only`: a credential of 56 bytes enrolled. -/
theorem range_raw_form_only_witness :
    (∀ op ∈ [Op.AddKey (List.replicate 56 97)], op.isHeaderKeyCall = true) ∧
    ((∀ k, basicKey k ∉ (Upstream.init.run [Op.AddKey (List.replicate 56 97)]).Range.map
        Prod.fst) ∧
    (∀ k ∈ (Upstream.init.run [Op.AddKey (List.replicate 56 97)]).Range.map Prod.fst,
      k.length = HeaderLen ∧
      (Upstream.init.run [Op.AddKey (List.replicate 56 97)]).Validate k = true) ∧
    ((Upstream.init.run [Op.AddKey (List.replicate 56 97)]).Range.map Prod.fst).Nodup) :=
  ⟨by decide, range_raw_form_only _ (by decide)⟩


/-! ## The aggregate `total` against the usage rows -/

theorem rowOf_mapDelete (m : List (Bytes × usage)) (k a : Bytes) (h : a ≠ k) :
    rowOf (mapDelete m k) a = rowOf m a := by
  simp [rowOf, mapGet_mapDelete, h]

theorem sumUp_split (m : List (Bytes × usage)) (k : Bytes) (h : (keys m).Nodup) :
    sumUp m = add64 (rowOf m k).up (sumUp (mapDelete m k)) := by
  induction m with
  | nil => simp [sumUp, rowOf, mapGet, mapDelete, add64, wrap64]
  | cons e rest ih =>
    obtain ⟨x, v⟩ := e
    simp only [keys, List.map_cons, List.nodup_cons] at h
    by_cases hx : x = k
    · subst hx
      have hd : mapDelete rest x = rest := mapDelete_of_not_mem rest x h.1
      simp [sumUp, rowOf, mapGet, mapDelete, hd]
    · have ih' := ih h.2
      simp only [sumUp, rowOf, mapGet, mapDelete, hx, if_false] at ih' ⊢
      rw [ih', add64_left_comm]

theorem sumDown_split (m : List (Bytes × usage)) (k : Bytes) (h : (keys m).Nodup) :
    sumDown m = add64 (rowOf m k).down (sumDown (mapDelete m k)) := by
  induction m with
  | nil => simp [sumDown, rowOf, mapGet, mapDelete, add64, wrap64]
  | cons e rest ih =>
    obtain ⟨x, v⟩ := e
    simp only [keys, List.map_cons, List.nodup_cons] at h
    by_cases hx : x = k
    · subst hx
      have hd : mapDelete rest x = rest := mapDelete_of_not_mem rest x h.1
      simp [sumDown, rowOf, mapGet, mapDelete, hd]
    · have ih' := ih h.2
      simp only [sumDown, rowOf, mapGet, mapDelete, hx, if_false] at ih' ⊢
      rw [ih', add64_left_comm]

/-- One call keeps `total.up` equal to the rows still present plus the rows deleted so far. -/
theorem total_up_apply (u : Upstream) (op : Op) (r : Int) (hwf : u.WF)
    (h : u.total.up = add64 (sumUp u.repo) r) :
    (op.apply u).total.up = add64 (sumUp (op.apply u).repo) (add64 r (op.removed u).up) := by
  have hdel : ∀ k : Bytes, sumUp u.repo = add64 (rowOf u.repo (basicKey k)).up
      (add64 (rowOf u.repo k).up (sumUp (mapDelete (mapDelete u.repo (basicKey k)) k))) := by
    intro k
    rw [sumUp_split u.repo (basicKey k) hwf.2,
      sumUp_split (mapDelete u.repo (basicKey k)) k (nodup_keys_mapDelete _ _ hwf.2),
      rowOf_mapDelete _ _ _ (Ne.symm (basicKey_ne_self k))]
  cases op with
  | AddKey k =>
    simp only [Op.apply, Upstream.AddKey, Op.removed, h]
    unfold add64 wrap64; omega
  | Add s =>
    simp only [Op.apply, Upstream.Add, Upstream.AddKey, Op.removed, h]
    unfold add64 wrap64; omega
  | DelKey k =>
    simp only [Op.apply, Upstream.DelKey, Op.removed, h, hdel k]
    generalize sumUp (mapDelete (mapDelete u.repo (basicKey k)) k) = S
    unfold add64 wrap64; omega
  | Del s =>
    simp only [Op.apply, Upstream.Del, Upstream.DelKey, Op.removed, h, hdel (GenKey s)]
    generalize sumUp (mapDelete (mapDelete u.repo (basicKey (GenKey s))) (GenKey s)) = S
    unfold add64 wrap64; omega
  | Consume s nr nw =>
    simp only [Op.apply, Upstream.Consume, Op.removed, h, mapSet, sumUp,
      sumUp_split u.repo s hwf.2]
    generalize sumUp (mapDelete u.repo s) = S
    have hrow : (match mapGet u.repo s with
        | some use => use
        | none => ⟨0, 0⟩ : usage) = rowOf u.repo s := rfl
    rw [hrow]
    unfold add64 wrap64; omega

/-- One call keeps `total.down` equal to the rows still present plus the rows deleted so far. -/
theorem total_down_apply (u : Upstream) (op : Op) (r : Int) (hwf : u.WF)
    (h : u.total.down = add64 (sumDown u.repo) r) :
    (op.apply u).total.down =
      add64 (sumDown (op.apply u).repo) (add64 r (op.removed u).down) := by
  have hdel : ∀ k : Bytes, sumDown u.repo = add64 (rowOf u.repo (basicKey k)).down
      (add64 (rowOf u.repo k).down (sumDown (mapDelete (mapDelete u.repo (basicKey k)) k))) := by
    intro k
    rw [sumDown_split u.repo (basicKey k) hwf.2,
      sumDown_split (mapDelete u.repo (basicKey k)) k (nodup_keys_mapDelete _ _ hwf.2),
      rowOf_mapDelete _ _ _ (Ne.symm (basicKey_ne_self k))]
  cases op with
  | AddKey k =>
    simp only [Op.apply, Upstream.AddKey, Op.removed, h]
    unfold add64 wrap64; omega
  | Add s =>
    simp only [Op.apply, Upstream.Add, Upstream.AddKey, Op.removed, h]
    unfold add64 wrap64; omega
  | DelKey k =>
    simp only [Op.apply, Upstream.DelKey, Op.removed, h, hdel k]
    generalize sumDown (mapDelete (mapDelete u.repo (basicKey k)) k) = S
    unfold add64 wrap64; omega
  | Del s =>
    simp only [Op.apply, Upstream.Del, Upstream.DelKey, Op.removed, h, hdel (GenKey s)]
    generalize sumDown (mapDelete (mapDelete u.repo (basicKey (GenKey s))) (GenKey s)) = S
    unfold add64 wrap64; omega
  | Consume s nr nw =>
    simp only [Op.apply, Upstream.Consume, Op.removed, h, mapSet, sumDown,
      sumDown_split u.repo s hwf.2]
    generalize sumDown (mapDelete u.repo s) = S
    have hrow : (match mapGet u.repo s with
        | some use => use
        | none => ⟨0, 0⟩ : usage) = rowOf u.repo s := rfl
    rw [hrow]
    unfold add64 wrap64; omega

theorem total_run (ops : List Op) : ∀ (u : Upstream) (r d : Int), u.WF →
    u.total.up = add64 (sumUp u.repo) r → u.total.down = add64 (sumDown u.repo) d →
    (u.run ops).total.up = add64 (sumUp (u.run ops).repo) (add64 r (removedBy u ops).up) ∧
    (u.run ops).total.down =
      add64 (sumDown (u.run ops).repo) (add64 d (removedBy u ops).down) := by
  induction ops with
  | nil =>
    intro u r d _ hu hd
    simp only [Upstream.run, List.foldl_nil, removedBy, hu, hd]
    constructor <;> (unfold add64 wrap64; omega)
  | cons op rest ih =>
    intro u r d hwf hu hd
    have h := ih (op.apply u) _ _ (WF_apply u op hwf) (total_up_apply u op r hwf hu)
      (total_down_apply u op d hwf hd)
    simp only [Upstream.run, List.foldl_cons, removedBy] at h ⊢
    rw [h.1, h.2, add64_assoc, add64_assoc]
    exact ⟨rfl, rfl⟩

/-- **C6 (as the claim states it) fails.** After `Consume("k", 1, 1)` and `DelKey("k")` the
usage map is empty, so both sums are 0, while `total` is still `(1, 1)`. -/
theorem total_counterexample :
    (Upstream.init.run [Op.Consume [107] 1 1, Op.DelKey [107]]).total.up ≠
      sumUp (Upstream.init.run [Op.Consume [107] 1 1, Op.DelKey [107]]).repo ∧
    (Upstream.init.run [Op.Consume [107] 1 1, Op.DelKey [107]]).total.down ≠
      sumDown (Upstream.init.run [Op.Consume [107] 1 1, Op.DelKey [107]]).repo := by
  decide

/-- **C6 (amended).** In every registry state reached from the empty registry by a sequence
of `AddKey`, `Add`, `DelKey`, `Del` and `Consume` calls, `total.up` equals, in `int64`
arithmetic, the sum of `up` over all usage rows plus the `up` of the rows that `DelKey` and
`Del` deleted (deleting a row does not decrement `total`); likewise for `down`. -/
theorem total_is_rows_plus_removed (ops : List Op) :
    (Upstream.init.run ops).total.up =
      add64 (sumUp (Upstream.init.run ops).repo) (removedBy Upstream.init ops).up ∧
    (Upstream.init.run ops).total.down =
      add64 (sumDown (Upstream.init.run ops).repo) (removedBy Upstream.init ops).down := by
  have h := total_run ops Upstream.init 0 0 WF_init (by decide) (by decide)
  rw [h.1, h.2]
  constructor <;> (unfold add64 wrap64; omega)


/-! ## The dispatcher and the TCP relay -/

/-- **C7 (as the claim states it) fails.** On the client stream that holds the single byte
`02` and then ends, `Handle` returns the error `read addr error: EOF`, not `command error`:
the address is read before the command byte is looked at. -/
theorem handle_command_error_counterexample :
    (Handle ReadAddrBuffer (fun _ => .error (.New "no route")) (fun _ _ => ⟨0, 0, none⟩)
      (fun _ => ⟨0, 0, none⟩) ⟨[2], .EOF⟩).ret = ⟨0, 0, some (.Wrap "read addr error" .EOF)⟩ ∧
    (GoError.Wrap "read addr error" .EOF).Error = "read addr error: EOF" ∧
    (GoError.Wrap "read addr error" .EOF) ≠ .New "command error" := by
  refine ⟨rfl, by decide, by decide⟩

/-- **C7 (amended).** For every client stream whose first byte is neither 1 nor 3, `Handle`
returns the counters `(0, 0)` and starts neither relay; the error it returns is
`command error` when the address and the two bytes after it are read, the wrapped read error
`read addr error: …` when reading the address fails, and `read 0x0d 0x0a error: …` when
reading the two bytes after it fails. -/
theorem handle_unknown_command (readAddr : Reader → Except GoError (Bytes × Reader))
    (resolveTCP : Bytes → Except GoError TCPAddr)
    (handleTCP : TCPAddr → Reader → Counts) (handleUDP : Reader → Counts)
    (cmd : Nat) (rest : Bytes) (e : GoError) (h1 : cmd ≠ CmdConnect) (h3 : cmd ≠ CmdAssociate) :
    Handle readAddr resolveTCP handleTCP handleUDP ⟨cmd :: rest, e⟩ =
      match readAddr ⟨rest, e⟩ with
      | .error err => ⟨⟨0, 0, some (.Wrap "read addr error" err)⟩, none⟩
      | .ok (_, r2) =>
        match ReadFull r2 2 with
        | .error err => ⟨⟨0, 0, some (.Wrap "read 0x0d 0x0a error" err)⟩, none⟩
        | .ok _ => ⟨⟨0, 0, some (.New "command error")⟩, none⟩ := by
  have hr : ReadFull ⟨cmd :: rest, e⟩ 1 = .ok ([cmd], ⟨rest, e⟩) := by
    simp [ReadFull]
  simp only [Handle, hr]
  cases readAddr ⟨rest, e⟩ with
  | error err => rfl
  | ok v =>
    obtain ⟨addr, r2⟩ := v
    simp only
    cases ReadFull r2 2 with
    | error err => rfl
    | ok w =>
      obtain ⟨crlf, r3⟩ := w
      simp [h1, h3]

/-- A witness of `handle_unknown_command`: the command byte `02` of scenario S2 before an
IPv4 address record and the two bytes `0D 0A`. -/
theorem handle_unknown_command_witness :
    (2 ≠ CmdConnect ∧ 2 ≠ CmdAssociate) ∧
    Handle ReadAddrBuffer (fun _ => .error (.New "no route")) (fun _ _ => ⟨0, 0, none⟩)
        (fun _ => ⟨0, 0, none⟩) ⟨2 :: [1, 127, 0, 0, 1, 0, 80, 13, 10], .EOF⟩ =
      match ReadAddrBuffer ⟨[1, 127, 0, 0, 1, 0, 80, 13, 10], .EOF⟩ with
      | .error err => ⟨⟨0, 0, some (.Wrap "read addr error" err)⟩, none⟩
      | .ok (_, r2) =>
        match ReadFull r2 2 with
        | .error err => ⟨⟨0, 0, some (.Wrap "read 0x0d 0x0a error" err)⟩, none⟩
        | .ok _ => ⟨⟨0, 0, some (.New "command error")⟩, none⟩ :=
  ⟨by decide, handle_unknown_command _ _ _ _ 2 _ _ (by decide) (by decide)⟩

/-- **C10.** For every pair of copy outcomes of `HandleTCP` (client-to-target task: `nr`
bytes and error `e1`; target-to-client copy: `nw` bytes and error `e2`), the result is
`(nr, nw, err)`, a deadline-exceeded error counting as a clean end in both directions:
`err` is nil when `e1` and `e2` are each nil or deadline-exceeded, `err` is `e2` when `e2`
is any other error, and `err` is `e1` when `e2` is clean and `e1` is any other error. -/
theorem handleTCP_result (nr nw : Int) (e1 e2 : Option GoError) :
    HandleTCP none (nr, e1) (nw, e2) =
      ⟨nr, nw, if nilOrDeadline e2 then (if nilOrDeadline e1 then none else e1) else e2⟩ := by
  unfold HandleTCP tcpTaskResult
  by_cases h2 : nilOrDeadline e2 = true <;> by_cases h1 : nilOrDeadline e1 = true <;>
    simp [h1, h2]


/-! ## The UDP relay: buffers -/

theorem put_length (b : Bytes) (off : Nat) (src : Bytes) : (put b off src).length = b.length := by
  simp only [put, List.length_append, List.length_take, List.length_drop]
  omega

theorem getElem?_slice (b : Bytes) (lo hi i : Nat) :
    (slice b lo hi)[i]? = if lo + i < hi then b[lo + i]? else none := by
  simp [slice, List.getElem?_drop, List.getElem?_take]

theorem getElem?_put (b : Bytes) (off : Nat) (src : Bytes) (i : Nat) :
    (put b off src)[i]? =
      if off ≤ i ∧ i < off + src.length ∧ i < b.length then src[i - off]? else b[i]? := by
  simp only [put]
  rw [List.getElem?_append]
  simp only [List.length_take]
  by_cases h1 : i < min off b.length
  · rw [if_pos h1, List.getElem?_take, if_pos (by omega), if_neg (by omega)]
  · rw [if_neg h1, List.getElem?_take]
    by_cases h3 : i - min off b.length < b.length - off
    · rw [if_pos h3, List.getElem?_append]
      by_cases h4 : i - min off b.length < src.length
      · rw [if_pos h4, if_pos (by omega)]
        congr 1
        omega
      · rw [if_neg h4, List.getElem?_drop, if_neg (by omega)]
        congr 1
        omega
    · rw [if_neg h3, if_neg (by omega)]
      exact (List.getElem?_eq_none (by omega)).symm

theorem slice_length (b : Bytes) (lo hi : Nat) (h : hi ≤ b.length) :
    (slice b lo hi).length = hi - lo := by
  simp only [slice, List.length_drop, List.length_take]
  omega

theorem slice_split (b : Bytes) (lo mid hi : Nat) (h1 : lo ≤ mid) (h2 : mid ≤ hi)
    (h3 : hi ≤ b.length) : slice b lo hi = slice b lo mid ++ slice b mid hi := by
  apply List.ext_getElem?
  intro i
  rw [List.getElem?_append, slice_length b lo mid (by omega)]
  simp only [getElem?_slice]
  by_cases h : i < mid - lo
  · have h4 : lo + i < hi := by omega
    have h5 : lo + i < mid := by omega
    simp [h, h4, h5]
  · have h6 : mid + (i - (mid - lo)) = lo + i := by omega
    simp only [h, if_false, h6]

theorem slice_put_disjoint (b : Bytes) (off : Nat) (src : Bytes) (lo hi : Nat)
    (h : hi ≤ off ∨ off + src.length ≤ lo) : slice (put b off src) lo hi = slice b lo hi := by
  apply List.ext_getElem?
  intro i
  simp only [getElem?_slice, getElem?_put]
  by_cases h1 : lo + i < hi
  · have h2 : ¬ (off ≤ lo + i ∧ lo + i < off + src.length ∧ lo + i < b.length) := by omega
    simp [h1, h2]
  · simp [h1]

theorem slice_put_self (b : Bytes) (off : Nat) (src : Bytes) (hi : Nat)
    (hhi : hi = off + src.length) (h : hi ≤ b.length) :
    slice (put b off src) off hi = src := by
  subst hhi
  apply List.ext_getElem?
  intro i
  simp only [getElem?_slice, getElem?_put]
  by_cases h1 : i < src.length
  · have h2 : off + i < off + src.length := by omega
    have h3 : off ≤ off + i ∧ off + i < off + src.length ∧ off + i < b.length := by omega
    simp [h2, h3]
  · have h2 : ¬ off + i < off + src.length := by omega
    simp [h2, List.getElem?_eq_none (Nat.le_of_not_lt h1)]

theorem To4_length (ip ipv4 : Bytes) (h : To4 ip = some ipv4) : ipv4.length = 4 := by
  unfold To4 at h
  by_cases h4 : ip.length = 4
  · simp only [h4, if_true, Option.some.injEq] at h
    rw [← h]; exact h4
  · simp only [h4, if_false] at h
    by_cases h16 : ip.length = 16 ∧ ip.take 12 = v4InV6Prefix
    · simp only [h16, and_self, if_true, Option.some.injEq] at h
      rw [← h, List.length_drop, h16.1]
    · simp [h16] at h

theorem To16_of_To4_none (ip : Bytes) (h : To4 ip = none) (hl : ip.length = 4 ∨ ip.length = 16) :
    To16 ip = ip ∧ ip.length = 16 := by
  unfold To4 at h
  by_cases h4 : ip.length = 4
  · simp [h4] at h
  · have h16 : ip.length = 16 := by omega
    simp [To16, h4, h16]


/-- The sender written by `putSender`: the buffer keeps its length, nothing from index `M`
on changes, and the bytes in front of `M` are the address type, the address and the port. -/
theorem putSender_spec (M t4 t6 : Nat) (b ip : Bytes) (port : Nat) (hM : 19 ≤ M)
    (hb : M ≤ b.length) (hl : ip.length = 4 ∨ ip.length = 16) :
    (putSender M t4 t6 b ip port).1.length = b.length ∧
    (∀ lo hi, M ≤ lo → slice (putSender M t4 t6 b ip port).1 lo hi = slice b lo hi) ∧
    (putSender M t4 t6 b ip port).2 = addrLen ⟨[], ip, port⟩ ∧
    slice (putSender M t4 t6 b ip port).1 (M - (putSender M t4 t6 b ip port).2) M =
      match To4 ip with
      | some ipv4 => t4 :: ipv4 ++ [port / 256 % 256, port % 256]
      | none => t6 :: ip ++ [port / 256 % 256, port % 256] := by
  obtain ⟨o, rfl⟩ : ∃ o, M = o + 19 := ⟨M - 19, by omega⟩
  cases h4 : To4 ip with
  | some ipv4 =>
    have hlen := To4_length ip ipv4 h4
    have htake : ipv4.take (o + 19 - (o + 19 - (1 + 4 + 2) + 1)) = ipv4 :=
      List.take_of_length_le (by omega)
    simp only [putSender, h4, addrLen, copy, htake]
    have e12 : o + 19 - (1 + 4 + 2) = o + 12 := by omega
    simp only [e12]
    refine ⟨by simp [put_length], ?_, trivial, ?_⟩
    · intro lo hi hlo
      rw [slice_put_disjoint _ _ _ _ _ (Or.inr (by simp; omega)),
        slice_put_disjoint _ _ _ _ _ (Or.inr (by simp; omega)),
        slice_put_disjoint _ _ _ _ _ (Or.inr (by omega)),
        slice_put_disjoint _ _ _ _ _ (Or.inr (by simp; omega))]
    · rw [slice_split _ (o + 12) (o + 13) (o + 19) (by omega) (by omega)
          (by simp [put_length]; omega),
        slice_split _ (o + 13) (o + 17) (o + 19) (by omega) (by omega)
          (by simp [put_length]; omega),
        slice_split _ (o + 17) (o + 18) (o + 19) (by omega) (by omega)
          (by simp [put_length]; omega)]
      have s1 : slice (put (put (put (put b (o + 12) [t4]) (o + 12 + 1) ipv4) (o + 12 + 1 + 4)
          [port / 256 % 256]) (o + 12 + 1 + 4 + 1) [port % 256]) (o + 12) (o + 13) = [t4] := by
        rw [slice_put_disjoint _ _ _ _ _ (Or.inl (by omega)),
          slice_put_disjoint _ _ _ _ _ (Or.inl (by omega)),
          slice_put_disjoint _ _ _ _ _ (Or.inl (by omega)),
          slice_put_self _ _ _ _ (by simp only [List.length_cons, List.length_nil]) (by omega)]
      have s2 : slice (put (put (put (put b (o + 12) [t4]) (o + 12 + 1) ipv4) (o + 12 + 1 + 4)
          [port / 256 % 256]) (o + 12 + 1 + 4 + 1) [port % 256]) (o + 13) (o + 17) = ipv4 := by
        rw [slice_put_disjoint _ _ _ _ _ (Or.inl (by omega)),
          slice_put_disjoint _ _ _ _ _ (Or.inl (by omega)),
          slice_put_self _ _ _ _ (by omega) (by simp [put_length]; omega)]
      have s3 : slice (put (put (put (put b (o + 12) [t4]) (o + 12 + 1) ipv4) (o + 12 + 1 + 4)
          [port / 256 % 256]) (o + 12 + 1 + 4 + 1) [port % 256]) (o + 17) (o + 18) =
          [port / 256 % 256] := by
        rw [slice_put_disjoint _ _ _ _ _ (Or.inl (by omega)),
          slice_put_self _ _ _ _ (by simp only [List.length_cons, List.length_nil]) (by simp [put_length]; omega)]
      have s4 : slice (put (put (put (put b (o + 12) [t4]) (o + 12 + 1) ipv4) (o + 12 + 1 + 4)
          [port / 256 % 256]) (o + 12 + 1 + 4 + 1) [port % 256]) (o + 18) (o + 19) =
          [port % 256] := by
        rw [slice_put_self _ _ _ _ (by simp only [List.length_cons, List.length_nil]) (by simp [put_length]; omega)]
      rw [s1, s2, s3, s4]
      simp
  | none =>
    obtain ⟨h16, hlen⟩ := To16_of_To4_none ip h4 hl
    have htake : ip.take (o + 19 - (o + 19 - (1 + 16 + 2) + 1)) = ip :=
      List.take_of_length_le (by omega)
    simp only [putSender, h4, addrLen, copy, h16, htake]
    have e0 : o + 19 - (1 + 16 + 2) = o := by omega
    simp only [e0]
    refine ⟨by simp [put_length], ?_, trivial, ?_⟩
    · intro lo hi hlo
      rw [slice_put_disjoint _ _ _ _ _ (Or.inr (by simp; omega)),
        slice_put_disjoint _ _ _ _ _ (Or.inr (by simp; omega)),
        slice_put_disjoint _ _ _ _ _ (Or.inr (by omega)),
        slice_put_disjoint _ _ _ _ _ (Or.inr (by simp; omega))]
    · rw [slice_split _ o (o + 1) (o + 19) (by omega) (by omega)
          (by simp [put_length]; omega),
        slice_split _ (o + 1) (o + 17) (o + 19) (by omega) (by omega)
          (by simp [put_length]; omega),
        slice_split _ (o + 17) (o + 18) (o + 19) (by omega) (by omega)
          (by simp [put_length]; omega)]
      have s1 : slice (put (put (put (put b o [t6]) (o + 1) ip) (o + 1 + 16)
          [port / 256 % 256]) (o + 1 + 16 + 1) [port % 256]) o (o + 1) = [t6] := by
        rw [slice_put_disjoint _ _ _ _ _ (Or.inl (by omega)),
          slice_put_disjoint _ _ _ _ _ (Or.inl (by omega)),
          slice_put_disjoint _ _ _ _ _ (Or.inl (by omega)),
          slice_put_self _ _ _ _ (by simp only [List.length_cons, List.length_nil]) (by omega)]
      have s2 : slice (put (put (put (put b o [t6]) (o + 1) ip) (o + 1 + 16)
          [port / 256 % 256]) (o + 1 + 16 + 1) [port % 256]) (o + 1) (o + 17) = ip := by
        rw [slice_put_disjoint _ _ _ _ _ (Or.inl (by omega)),
          slice_put_disjoint _ _ _ _ _ (Or.inl (by omega)),
          slice_put_self _ _ _ _ (by omega) (by simp [put_length]; omega)]
      have s3 : slice (put (put (put (put b o [t6]) (o + 1) ip) (o + 1 + 16)
          [port / 256 % 256]) (o + 1 + 16 + 1) [port % 256]) (o + 17) (o + 18) =
          [port / 256 % 256] := by
        rw [slice_put_disjoint _ _ _ _ _ (Or.inl (by omega)),
          slice_put_self _ _ _ _ (by simp only [List.length_cons, List.length_nil]) (by simp [put_length]; omega)]
      have s4 : slice (put (put (put (put b o [t6]) (o + 1) ip) (o + 1 + 16)
          [port / 256 % 256]) (o + 1 + 16 + 1) [port % 256]) (o + 18) (o + 19) =
          [port % 256] := by
        rw [slice_put_self _ _ _ _ (by simp only [List.length_cons, List.length_nil]) (by simp [put_length]; omega)]
      rw [s1, s2, s3, s4]
      simp


/-- One pass of the target-to-client loop on a buffer of 16 KiB that holds `0x0d`, `0x0a` at
`M+2`, `M+3`: the record written is the framed record of the datagram, the count is the
length of the address part plus 4 plus the payload length, and the buffer is again such a
buffer. -/
theorem targetToClientBody_spec (M t4 t6 : Nat) (b : Bytes) (d : Datagram) (hM : 19 ≤ M)
    (hM2 : M + 4 ≤ udpBufLen) (hb : b.length = udpBufLen)
    (hcr : slice b (M + 2) (M + 4) = [0x0d, 0x0a]) (hd : d.fits M = true) :
    (targetToClientBody M t4 t6 b d).record = framedRecord t4 t6 d ∧
    (targetToClientBody M t4 t6 b d).count = (addrLen d : Int) + 4 + d.payload.length ∧
    (targetToClientBody M t4 t6 b d).b.length = udpBufLen ∧
    slice (targetToClientBody M t4 t6 b d).b (M + 2) (M + 4) = [0x0d, 0x0a] := by
  simp only [Datagram.fits, Bool.decide_and, Bool.decide_or, Bool.and_eq_true, Bool.or_eq_true,
    decide_eq_true_eq] at hd
  obtain ⟨hip, hport, hn⟩ := hd
  have hmin : min d.payload.length (b.length - (M + 4)) = d.payload.length := by
    rw [hb]; omega
  have htake : d.payload.take (b.length - (M + 4)) = d.payload :=
    List.take_of_length_le (by rw [hb]; omega)
  have hlen3 : (put (put (put b (M + 4) d.payload) M [d.payload.length / 256 % 256]) (M + 1)
      [d.payload.length % 256]).length = b.length := by
    simp [put_length]
  obtain ⟨p1, p2, p3, p4⟩ := putSender_spec M t4 t6
    (put (put (put b (M + 4) d.payload) M [d.payload.length / 256 % 256]) (M + 1)
      [d.payload.length % 256]) d.IP d.Port hM (by rw [hlen3, hb]; omega) hip
  have hudp : udpBufLen = 16384 := rfl
  have haddr : addrLen ⟨[], d.IP, d.Port⟩ = addrLen d := rfl
  have hal : addrLen d = 7 ∨ addrLen d = 19 := by
    unfold addrLen; cases To4 d.IP <;> simp
  simp only [targetToClientBody, copy, hmin, htake]
  refine ⟨?_, ?_, ?_, ?_⟩
  · -- the record
    rw [slice_split _ _ M _ (by omega) (by omega) (by rw [p1, hlen3, hb]; omega), p4,
      p2 _ _ (Nat.le_refl M),
      slice_split _ M (M + 1) _ (by omega) (by omega) (by rw [hlen3, hb]; omega),
      slice_split _ (M + 1) (M + 2) _ (by omega) (by omega) (by rw [hlen3, hb]; omega),
      slice_split _ (M + 2) (M + 4) _ (by omega) (by omega) (by rw [hlen3, hb]; omega)]
    have s1 : slice (put (put (put b (M + 4) d.payload) M [d.payload.length / 256 % 256])
        (M + 1) [d.payload.length % 256]) M (M + 1) = [d.payload.length / 256 % 256] := by
      rw [slice_put_disjoint _ _ _ _ _ (Or.inl (by omega)),
        slice_put_self _ _ _ _ (by simp only [List.length_cons, List.length_nil])
          (by rw [put_length, hb]; omega)]
    have s2 : slice (put (put (put b (M + 4) d.payload) M [d.payload.length / 256 % 256])
        (M + 1) [d.payload.length % 256]) (M + 1) (M + 2) = [d.payload.length % 256] := by
      rw [slice_put_self _ _ _ _ (by simp only [List.length_cons, List.length_nil])
          (by rw [put_length, put_length, hb]; omega)]
    have s3 : slice (put (put (put b (M + 4) d.payload) M [d.payload.length / 256 % 256])
        (M + 1) [d.payload.length % 256]) (M + 2) (M + 4) = [0x0d, 0x0a] := by
      rw [slice_put_disjoint _ _ _ _ _ (Or.inr (by simp)),
        slice_put_disjoint _ _ _ _ _ (Or.inr (by simp)),
        slice_put_disjoint _ _ _ _ _ (Or.inl (by omega)), hcr]
    have s4 : slice (put (put (put b (M + 4) d.payload) M [d.payload.length / 256 % 256])
        (M + 1) [d.payload.length % 256]) (M + 4) (M + 4 + d.payload.length) = d.payload := by
      rw [slice_put_disjoint _ _ _ _ _ (Or.inr (by simp)),
        slice_put_disjoint _ _ _ _ _ (Or.inr (by simp)),
        slice_put_self _ _ _ _ rfl (by rw [hb]; omega)]
    rw [s1, s2, s3, s4]
    have hdiv : d.payload.length / 256 % 256 = d.payload.length / 256 := by omega
    have hpd : d.Port / 256 % 256 = d.Port / 256 := by omega
    unfold framedRecord be16
    cases To4 d.IP <;> simp [hdiv, hpd]
  · rw [p3, haddr]; omega
  · rw [p1, hlen3, hb]
  · rw [p2 _ _ (by omega),
      slice_put_disjoint _ _ _ _ _ (Or.inr (by simp)),
      slice_put_disjoint _ _ _ _ _ (Or.inr (by simp)),
      slice_put_disjoint _ _ _ _ _ (Or.inl (by omega)), hcr]


theorem targetToClientLoop_spec (M t4 t6 : Nat) (hM : 19 ≤ M) (hM2 : M + 4 ≤ udpBufLen)
    (events : List (Datagram × Option GoError)) :
    ∀ (b : Bytes) (nw : Int) (er : GoError), b.length = udpBufLen →
      slice b (M + 2) (M + 4) = [0x0d, 0x0a] → (∀ e ∈ events, e.1.fits M = true) →
      (targetToClientLoop M t4 t6 b nw events er).writes =
        (attempted events).map (framedRecord t4 t6) ∧
      (targetToClientLoop M t4 t6 b nw events er).nw =
        (attempted events).foldl
          (fun nw d => add64 nw ((addrLen d : Int) + 4 + d.payload.length)) nw := by
  induction events with
  | nil => intro b nw er _ _ _; exact ⟨rfl, rfl⟩
  | cons e rest ih =>
    intro b nw er hb hcr hfit
    obtain ⟨d, ew⟩ := e
    obtain ⟨q1, q2, q3, q4⟩ := targetToClientBody_spec M t4 t6 b d hM hM2 hb hcr
      (hfit (d, ew) (List.mem_cons_self _ _))
    cases ew with
    | some ew => simp [targetToClientLoop, attempted, q1, q2]
    | none =>
      obtain ⟨r1, r2⟩ := ih (targetToClientBody M t4 t6 b d).b
        (add64 nw (targetToClientBody M t4 t6 b d).count) er q3 q4
        (fun e he => hfit e (List.mem_cons_of_mem _ he))
      rw [q2] at r1 r2
      simp only [targetToClientLoop, attempted, List.map_cons, List.foldl_cons, q1, q2, r1, r2]
      exact ⟨trivial, trivial⟩

/-! ## The UDP relay: the two tasks -/

/-- **C8 (the code at the failing inputs).** When the client-to-target task of `HandleUDP`
reads a framed record (address resolved, four more bytes read) whose declared `Length` plus
address length exceeds the 16384 bytes of the scratch buffer, the task does not end with a
read error: the slice expression `b[len(raddr.Addr):l]` is out of range and the task
panics, at any positive number of passes allowed. -/
theorem udp_oversized_record_crashes (M : Nat)
    (readAddr : Reader → Except GoError (Bytes × Reader))
    (resolveUDP : Bytes → Except GoError UDPAddr)
    (writeToUDP : Bytes → Option UDPAddr → Option GoError) (fuel : Nat)
    (r r1 r2 : Reader) (raddr : Bytes) (tgt : UDPAddr) (hi lo : Nat)
    (ha : readAddr r = .ok (raddr, r1)) (hres : resolveUDP raddr = .ok tgt)
    (hh : ReadFull r1 4 = .ok ([hi, lo, 0x0d, 0x0a], r2)) (hlo : lo < 256)
    (hbig : udpBufLen < raddr.length + (hi * 256 + lo)) :
    ∃ nr top, udpBufLen < top ∧
      clientToTargetTask M readAddr resolveUDP writeToUDP (fuel + 1) r =
        some (.crash nr top) := by
  have hor : hi <<< 8 ||| lo = hi * 256 + lo := by
    rw [Nat.shiftLeft_eq, Nat.mul_comm, ← Nat.mul_add_lt_is_or (by simpa using hlo)]
  by_cases hl4 : udpBufLen < raddr.length + 4
  · refine ⟨0, raddr.length + 4, hl4, ?_⟩
    by_cases hbb : List.replicate M 0 = raddr
    · simp [clientToTargetTask, clientToTargetLoop, clientToTargetBody, ha, hbb, hl4]
    · simp [clientToTargetTask, clientToTargetLoop, clientToTargetBody, ha, hres, hbb, hl4]
  · refine ⟨add64 0 ((raddr.length + (hi * 256 + lo) : Nat) + 4),
      raddr.length + (hi * 256 + lo), hbig, ?_⟩
    by_cases hbb : List.replicate M 0 = raddr
    · simp [clientToTargetTask, clientToTargetLoop, clientToTargetBody, ha, hbb, hl4, hh,
        hor, hbig]
    · simp [clientToTargetTask, clientToTargetLoop, clientToTargetBody, ha, hres, hbb, hl4, hh,
        hor, hbig]

/-- A witness of `udp_oversized_record_crashes`: the record `01 08 08 08 08 00 35 | FF FF |
0D 0A` (an IPv4 address of 7 bytes, `Length` 65535); the task panics on `b[7:65542]`. -/
theorem udp_oversized_record_crashes_witness :
    (ReadAddrBuffer ⟨[1, 8, 8, 8, 8, 0, 53, 255, 255, 13, 10], .EOF⟩ =
        .ok ([1, 8, 8, 8, 8, 0, 53], ⟨[255, 255, 13, 10], .EOF⟩) ∧
      ReadFull ⟨[255, 255, 13, 10], .EOF⟩ 4 = .ok ([255, 255, 0x0d, 0x0a], ⟨[], .EOF⟩) ∧
      255 < 256 ∧ udpBufLen < [1, 8, 8, 8, 8, 0, 53].length + (255 * 256 + 255)) ∧
    (∃ nr top, udpBufLen < top ∧
      clientToTargetTask 259 ReadAddrBuffer (fun a => .ok ⟨a, 0⟩) (fun _ _ => none) (0 + 1)
        ⟨[1, 8, 8, 8, 8, 0, 53, 255, 255, 13, 10], .EOF⟩ = some (.crash nr top)) ∧
    clientToTargetTask 259 ReadAddrBuffer (fun a => .ok ⟨a, 0⟩) (fun _ _ => none) 1
        ⟨[1, 8, 8, 8, 8, 0, 53, 255, 255, 13, 10], .EOF⟩ = some (.crash 65546 65542) :=
  ⟨⟨rfl, rfl, by decide, by decide⟩,
    udp_oversized_record_crashes 259 ReadAddrBuffer (fun a => .ok ⟨a, 0⟩) (fun _ _ => none) 0
      ⟨[1, 8, 8, 8, 8, 0, 53, 255, 255, 13, 10], .EOF⟩ ⟨[255, 255, 13, 10], .EOF⟩ ⟨[], .EOF⟩
      [1, 8, 8, 8, 8, 0, 53] ⟨[1, 8, 8, 8, 8, 0, 53], 0⟩ 255 255 rfl rfl rfl (by decide)
      (by decide),
    by decide⟩

/-- **C9.** For every sequence of datagrams received by the target-to-client task of
`HandleUDP` (each of `n` bytes from a sender with IP address `ip` and port `p`), the bytes
passed to `w` in one `Write` are exactly the address type (IPv4 when `ip` has a 4-byte form,
else IPv6), the 4- or 16-byte IP, the port big-endian on 2 bytes, `n` big-endian on 2 bytes,
`0x0D 0x0A` and the `n` payload bytes; and `nw` grows (in `int64` arithmetic) by
`addr_len + 4 + n` for each of them, `addr_len` being 7 for IPv4 and 19 for IPv6. -/
theorem udp_return_records (M t4 t6 : Nat) (events : List (Datagram × Option GoError))
    (er : GoError) (hM : 19 ≤ M) (hM2 : M + 4 ≤ udpBufLen)
    (h : ∀ e ∈ events, e.1.fits M = true) :
    (targetToClientTask M t4 t6 events er).writes =
      (attempted events).map (framedRecord t4 t6) ∧
    (targetToClientTask M t4 t6 events er).nw =
      (attempted events).foldl
        (fun nw d => add64 nw ((addrLen d : Int) + 4 + d.payload.length)) 0 := by
  have hudp : udpBufLen = 16384 := rfl
  apply targetToClientLoop_spec M t4 t6 hM hM2 events _ 0 er
  · simp [put_length]
  · rw [slice_split _ (M + 2) (M + 3) (M + 4) (by omega) (by omega)
        (by simp [put_length]; omega),
      slice_put_disjoint _ _ _ (M + 2) (M + 3) (Or.inl (by omega)),
      slice_put_self _ _ _ _ (by simp only [List.length_cons, List.length_nil])
        (by simp; omega),
      slice_put_self _ _ _ _ (by simp only [List.length_cons, List.length_nil])
        (by simp [put_length]; omega)]
    rfl
  · exact h

/-- A witness of `udp_return_records`: `MaxAddrLen` 259, the address types 1 and 4, one
datagram of three bytes from `8.8.8.8:53` and one from an IPv6 sender. -/
theorem udp_return_records_witness :
    (19 ≤ 259 ∧ 259 + 4 ≤ udpBufLen ∧
      ∀ e ∈ [((⟨[1, 2, 3], [8, 8, 8, 8], 53⟩ : Datagram), (none : Option GoError)),
          (⟨[7], [32, 1, 0, 0, 0, 0, 0, 0, 0, 0, 0, 0, 0, 0, 0, 1], 443⟩, none)],
        e.1.fits 259 = true) ∧
    ((targetToClientTask 259 1 4 [(⟨[1, 2, 3], [8, 8, 8, 8], 53⟩, none),
        (⟨[7], [32, 1, 0, 0, 0, 0, 0, 0, 0, 0, 0, 0, 0, 0, 0, 1], 443⟩, none)]
        .ErrDeadlineExceeded).writes =
      (attempted [(⟨[1, 2, 3], [8, 8, 8, 8], 53⟩, none),
        (⟨[7], [32, 1, 0, 0, 0, 0, 0, 0, 0, 0, 0, 0, 0, 0, 0, 1], 443⟩, none)]).map
        (framedRecord 1 4) ∧
    (targetToClientTask 259 1 4 [(⟨[1, 2, 3], [8, 8, 8, 8], 53⟩, none),
        (⟨[7], [32, 1, 0, 0, 0, 0, 0, 0, 0, 0, 0, 0, 0, 0, 0, 1], 443⟩, none)]
        .ErrDeadlineExceeded).nw =
      (attempted [(⟨[1, 2, 3], [8, 8, 8, 8], 53⟩, none),
        (⟨[7], [32, 1, 0, 0, 0, 0, 0, 0, 0, 0, 0, 0, 0, 0, 0, 1], 443⟩, none)]).foldl
        (fun nw d => add64 nw ((addrLen d : Int) + 4 + d.payload.length)) 0) :=
  ⟨⟨by decide, by decide, by decide⟩,
    udp_return_records 259 1 4 _ _ (by decide) (by decide) (by decide)⟩


end Trojan
